import Mathlib

/-!
Verification development for the Forkable trajectory subsystem of the
Principia celestial-mechanics engine.

The Forkable data structure is a tree of trajectory nodes.  Each node owns a
local timeline (a strictly increasing sequence of instants; the payloads play
no role in the properties below and are omitted) and each non-root node
records its parent together with the fork time, the time of the parent sample
at which the branch diverges.  Iterating a node walks the effective timeline:
the parent's effective timeline truncated at the fork point (inclusive),
concatenated with the node's own timeline.

Modelled from the spec: the C++ template `Forkable`/`ForkableIterator`
(physics/forkable.hpp) is not part of the sources; only its unit tests are.
The definitions below therefore follow the specification's data model and
algorithms, constrained by the observable behaviour that the unit tests pin
down (`physics/forkable_test.cpp`):
* timeline cursors are reference-stable, so a cursor is identified with the
  time of the sample it designates (times are strictly increasing, hence a
  sample is determined by its time);
* the node arena is keyed by creation order (`nextId`), so a parent's id is
  always smaller than the ids of its descendants;
* the `Forkable` base class only sees the timeline through the read-only
  virtuals `timeline_begin/end/find/lower_bound/empty`, hence no Forkable
  operation can itself mutate a timeline (the caller performs the
  `push_front`/`pop_front` of the copied-begin dance);
* `NewFork` called with the end cursor on a non-root forks at the node's own
  fork point (test `ForkAtLast`), and on a root it dies with the `!is_root()`
  check (test `ForkError`).
-/

/-- Instants are a totally ordered time axis with subtraction; integers. -/
abbrev Instant := Int

/-- A Forkable node: its own timeline and, unless it is a root, its parent id
together with the fork time (the time of the parent sample at which this
branch diverges). -/
structure Node where
  own : List Instant
  parent : Option (Nat × Instant)
deriving Repr, DecidableEq

/-- The arena of nodes, keyed by id in creation order. -/
structure Forest where
  nodes : List (Nat × Node)
  nextId : Nat
deriving Repr, DecidableEq

/-- Error kinds of the Forkable contract (spec section 7).  `InvalidCursor`
is a modelling artifact for calls that cannot even be expressed in the C++
interface (a cursor that designates no sample of the node it came from). -/
inductive Err where
  | OutOfOrder | EmptyFork | RootFork | IsRoot | NotRoot | NotAChild
  | EmptyTimeline | BeforeForkTime | NonRoot | ForkFound | PastEnd
  | BeforeBegin | InvalidCursor
deriving Repr, DecidableEq

/-- Decidable equality of fallible results, for evaluating the model on
concrete inputs. -/
instance {ε α : Type} [DecidableEq ε] [DecidableEq α] :
    DecidableEq (Except ε α) := fun
  | .error e, .error e' =>
    if h : e = e' then .isTrue (by rw [h])
    else .isFalse (by intro hc; cases hc; exact h rfl)
  | .error _, .ok _ => .isFalse (by intro hc; cases hc)
  | .ok _, .error _ => .isFalse (by intro hc; cases hc)
  | .ok a, .ok b =>
    if h : a = b then .isTrue (by rw [h])
    else .isFalse (by intro hc; cases hc; exact h rfl)

/-- Look a node up by id. -/
def Forest.lookup (f : Forest) (n : Nat) : Option Node :=
  List.lookup n f.nodes

/-- The node's own timeline (empty for an absent id). -/
def ownOf (f : Forest) (n : Nat) : List Instant :=
  ((f.lookup n).map Node.own).getD []

/-- The node's parent id and fork time (none for a root or an absent id). -/
def parentOf (f : Forest) (n : Nat) : Option (Nat × Instant) :=
  (f.lookup n).bind Node.parent

/-- The fork time of a non-root node (junk value 0 for a root). -/
def ftOf (f : Forest) (n : Nat) : Instant :=
  (((parentOf f n).map Prod.snd)).getD 0

/-- Whether the id denotes a node of the forest. -/
def hasNode (f : Forest) (n : Nat) : Bool :=
  (f.lookup n).isSome

/-- Source `is_root()`: true iff the node has no parent. -/
def isRoot (f : Forest) (n : Nat) : Bool :=
  (parentOf f n).isNone

/-- Fuel-indexed effective timeline.  Modelled from the spec: the iterable
sequence of a node is its own timeline if it is a root, else the parent's
effective timeline truncated at the fork point (inclusive) followed by the
node's own timeline.  The fuel dominates the length of the parent chain;
parents have smaller ids, so `fuel = n + 1` always suffices. -/
def effA (f : Forest) : Nat → Nat → List Instant
  | 0, n => ownOf f n
  | fuel+1, n =>
    match parentOf f n with
    | none => ownOf f n
    | some (p, ft) =>
      if p < n then (effA f fuel p).takeWhile (fun x => decide (x ≤ ft)) ++ ownOf f n
      else ownOf f n

/-- The effective timeline of a node. -/
def eff (f : Forest) (n : Nat) : List Instant :=
  effA f (n + 1) n

/-- Fuel-indexed path from the root down to a node (root first). -/
def pathToA (f : Forest) : Nat → Nat → List Nat
  | 0, n => [n]
  | fuel+1, n =>
    match parentOf f n with
    | none => [n]
    | some (p, _) => if p < n then pathToA f fuel p ++ [n] else [n]

/-- The ancestry path of a node, root first, the node itself last. -/
def pathTo (f : Forest) (n : Nat) : List Nat :=
  pathToA f (n + 1) n

/-- Fuel-indexed ascent: starting at node `p`, walk parents until a node
whose own timeline contains the sample time `t`; produce the chain from that
owner down to `p` (owner first). -/
def ascendChainA (f : Forest) (t : Instant) : Nat → Nat → Option (List Nat)
  | 0, p => if t ∈ ownOf f p then some [p] else none
  | fuel+1, p =>
    if t ∈ ownOf f p then some [p]
    else
      match parentOf f p with
      | none => none
      | some (q, _) =>
        if q < p then (ascendChainA f t fuel q).map (fun ch => ch ++ [p]) else none

/-- Ascend from `p` to the closest ancestor owning a sample at time `t`. -/
def ascendChain (f : Forest) (t : Instant) (p : Nat) : Option (List Nat) :=
  ascendChainA f t (p + 1) p

/-- Fuel-indexed descendant test: is `k` a (weak) descendant of `a`? -/
def isDescendantA (f : Forest) (a : Nat) : Nat → Nat → Bool
  | 0, k => k = a
  | fuel+1, k =>
    if k = a then true
    else
      match parentOf f k with
      | none => false
      | some (p, _) => if p < k then isDescendantA f a fuel p else false

/-- Whether `k` lies in the subtree rooted at `a` (including `a` itself). -/
def isDescendant (f : Forest) (a k : Nat) : Bool :=
  isDescendantA f a (k + 1) k

/-- The first own sample strictly after `t` (the next cursor position in a
timeline whose cursor stands at the sample of time `t`). -/
def succOwn (l : List Instant) (t : Instant) : Option Instant :=
  l.find? (fun x => decide (t < x))

/-- The last own sample strictly before `t` (the previous cursor position in
a timeline whose cursor stands at the sample of time `t`). -/
def predOwn (l : List Instant) (t : Instant) : Option Instant :=
  (l.takeWhile (fun x => decide (x < t))).getLast?

/-- Truncate the segment contributed by a node at the fork time of the next
node of the chain (no truncation when the node is the last of the chain). -/
def boundsTW (f : Forest) (rest : List Nat) (l : List Instant) : List Instant :=
  match rest with
  | [] => l
  | b :: _ => l.takeWhile (fun x => decide (x ≤ ftOf f b))

/-- The concatenation of the timeline segments contributed by a chain of
nodes: each node's own timeline truncated at the next node's fork time, the
last node's own timeline whole. -/
def segsFrom (f : Forest) : List Nat → List Instant
  | [] => []
  | a :: rest => boundsTW f rest (ownOf f a) ++ segsFrom f rest

/-- A Forkable iterator.  Modelled from the spec: the iterator internally
keeps the chain of nodes from the node owning the current sample down to the
trajectory being iterated, together with the cursor into the front node's own
timeline (`none` is that timeline's end cursor and marks `End`). -/
structure Iter where
  target : Nat
  ancestry : List Nat
  pos : Option Instant
deriving Repr, DecidableEq

/-- Source `End()`: the past-the-end iterator of a trajectory. -/
def endIt (n : Nat) : Iter :=
  ⟨n, [n], none⟩

/-- Enter the front node of a chain at its first contributing sample,
skipping nodes that contribute nothing, and producing `End` when no node of
the chain contributes a sample. -/
def descendList (f : Forest) (n : Nat) : List Nat → Iter
  | [] => endIt n
  | [a] =>
    match (ownOf f a).head? with
    | some s => ⟨n, [a], some s⟩
    | none => endIt n
  | a :: b :: rest =>
    match (ownOf f a).head? with
    | some s =>
      if s ≤ ftOf f b then ⟨n, a :: b :: rest, some s⟩
      else descendList f n (b :: rest)
    | none => descendList f n (b :: rest)

/-- Source `Begin()`: descend the full ancestry path from the root. -/
def beginIt (f : Forest) (n : Nat) : Iter :=
  descendList f n (pathTo f n)

/-- Source `operator++`: advance the cursor within the current node's own
timeline; on crossing the fork point of the next node of the chain (or the
end of the current node's own timeline), descend into the rest of the chain.
Advancing `End` fails. -/
def nextIt (f : Forest) (it : Iter) : Option Iter :=
  match it.pos with
  | none => none
  | some t =>
    match it.ancestry with
    | [] => none
    | [a] =>
      match succOwn (ownOf f a) t with
      | some s => some ⟨it.target, [a], some s⟩
      | none => some (endIt it.target)
    | a :: b :: rest =>
      match succOwn (ownOf f a) t with
      | some s =>
        if s ≤ ftOf f b then some ⟨it.target, a :: b :: rest, some s⟩
        else some (descendList f it.target (b :: rest))
      | none => some (descendList f it.target (b :: rest))

/-- Source `operator--`: retreat the cursor within the current node's own
timeline; when retreating from the first sample of a fork's own timeline,
ascend into the ancestor owning the fork-point sample and continue there.
Retreating from `Begin`, or from the `End` of an empty root, fails. -/
def prevIt (f : Forest) (it : Iter) : Option Iter :=
  match it.pos with
  | some t =>
    match it.ancestry with
    | [] => none
    | a :: l =>
      match predOwn (ownOf f a) t with
      | some s => some ⟨it.target, a :: l, some s⟩
      | none =>
        match parentOf f a with
        | none => none
        | some (p, ft) =>
          match ascendChain f ft p with
          | some ch => some ⟨it.target, ch ++ a :: l, some ft⟩
          | none => none
  | none =>
    match (ownOf f it.target).getLast? with
    | some s => some ⟨it.target, [it.target], some s⟩
    | none =>
      match parentOf f it.target with
      | none => none
      | some (p, ft) =>
        match ascendChain f ft p with
        | some ch => some ⟨it.target, ch ++ [it.target], some ft⟩
        | none => none

/-- Run the iterator, collecting the instants of the visited samples until
`End` is reached or the fuel runs out. -/
def iterListAux (f : Forest) : Nat → Iter → List Instant
  | 0, _ => []
  | fuel+1, it =>
    match it.pos with
    | none => []
    | some t =>
      match nextIt f it with
      | some it' => t :: iterListAux f fuel it'
      | none => [t]

/-- Total number of samples stored in the forest (a fuel bound: no iteration
visits more samples than exist). -/
def totalOwn (f : Forest) : Nat :=
  (f.nodes.map (fun pr => (ownOf f pr.1).length)).sum

/-- The sequence of instants obtained by iterating a trajectory from
`Begin()` to `End()`. -/
def iterTimes (f : Forest) (n : Nat) : List Instant :=
  iterListAux f (totalOwn f + 1) (beginIt f n)

/-- Source `Find(t)`: the iterator at the sample of the effective timeline
whose time is exactly `t`, or `End` if there is none. -/
def findIt (f : Forest) (n : Nat) (t : Instant) : Iter :=
  if t ∈ eff f n then
    match ascendChain f t n with
    | some ch => ⟨n, ch, some t⟩
    | none => endIt n
  else endIt n

/-- Source `LowerBound(t)`: the iterator at the first sample of the effective
timeline whose time is at least `t`, or `End` if there is none. -/
def lowerBoundIt (f : Forest) (n : Nat) (t : Instant) : Iter :=
  match (eff f n).find? (fun x => decide (t ≤ x)) with
  | some s =>
    match ascendChain f s n with
    | some ch => ⟨n, ch, some s⟩
    | none => endIt n
  | none => endIt n

/-- Replace the record stored under an id (identity for an absent id). -/
def setNode (f : Forest) (n : Nat) (nd : Node) : Forest :=
  ⟨f.nodes.map (fun pr => if pr.1 = n then (n, nd) else pr), f.nextId⟩

/-- Source `push_back(t)` of the fake trajectory: append to the own
timeline. -/
def pushBack (f : Forest) (n : Nat) (t : Instant) : Forest :=
  match f.lookup n with
  | none => f
  | some nd => setNode f n ⟨nd.own ++ [t], nd.parent⟩

/-- Source `push_front(t)` of the fake trajectory: prepend to the own
timeline (the caller's half of the copied-begin dance). -/
def pushFront (f : Forest) (n : Nat) (t : Instant) : Forest :=
  match f.lookup n with
  | none => f
  | some nd => setNode f n ⟨t :: nd.own, nd.parent⟩

/-- Source `pop_front()` of the fake trajectory: drop the earliest own
sample. -/
def popFront (f : Forest) (n : Nat) : Forest :=
  match f.lookup n with
  | none => f
  | some nd => setNode f n ⟨nd.own.tail, nd.parent⟩

/-- Modelled from the spec: `NewFork(at)` creates and owns an empty child
branching at the sample the cursor designates.  A cursor of a node's own
timeline either designates an own sample (`some t` with `t` in the own
timeline) or is the end cursor (`none`).  With the end cursor, a non-root
forks at its own fork point (test `ForkAtLast`) while a root fails the
`!is_root()` check (test `ForkError`). -/
def newFork (f : Forest) (n : Nat) (cursor : Option Instant) :
    Except Err (Forest × Nat) :=
  match f.lookup n with
  | none => .error .InvalidCursor
  | some nd =>
    match cursor with
    | some t =>
      if t ∈ nd.own then
        .ok (⟨f.nodes ++ [(f.nextId, ⟨[], some (n, t)⟩)], f.nextId + 1⟩, f.nextId)
      else .error .InvalidCursor
    | none =>
      match nd.parent with
      | none => .error .RootFork
      | some (_, ft) =>
        .ok (⟨f.nodes ++ [(f.nextId, ⟨[], some (n, ft)⟩)], f.nextId + 1⟩, f.nextId)

/-- Modelled from the spec: `DeleteFork(&child)` is invoked on the parent and
destroys the designated child together with its whole subtree (ownership is
strict parent-to-child).  It fails the `!is_root()` check on a root pointer
and the `not a child` check on a pointer that is not a directly owned
child. -/
def deleteFork (f : Forest) (p c : Nat) : Except Err Forest :=
  match f.lookup c with
  | none => .error .InvalidCursor
  | some nd =>
    match nd.parent with
    | none => .error .IsRoot
    | some (pp, _) =>
      if pp = p then
        .ok ⟨f.nodes.filter (fun pr => !isDescendant f c pr.1), f.nextId⟩
      else .error .NotAChild

/-- Modelled from the spec: `DetachForkWithCopiedBegin()` removes the node
from its parent and returns it to the caller as an owned root.  The base
class only sees the timeline through read-only virtuals, so the timeline is
left unchanged: the caller is expected to have prepended a copy of the
fork-point sample beforehand (test `DetachForkWithCopiedBeginSuccess` calls
`push_front` first and observes no duplicated sample afterwards).  Fails the
`!is_root()` check on a root. -/
def detachForkWithCopiedBegin (f : Forest) (c : Nat) : Except Err Forest :=
  match f.lookup c with
  | none => .error .InvalidCursor
  | some nd =>
    match nd.parent with
    | none => .error .IsRoot
    | some _ => .ok (setNode f c ⟨nd.own, none⟩)

/-- Modelled from the spec: `AttachForkToCopiedBegin(child)` takes ownership
of an independent root and attaches it as a fork of `p`, using the time of
the child's first sample to locate the parent sample that becomes the fork
point.  Fails the `is_root()` check on a non-root child and the
`!timeline_empty()` check on a child with an empty timeline. -/
def attachForkToCopiedBegin (f : Forest) (p c : Nat) : Except Err Forest :=
  match f.lookup c with
  | none => .error .InvalidCursor
  | some nd =>
    match nd.parent with
    | some _ => .error .NotRoot
    | none =>
      match nd.own.head? with
      | none => .error .EmptyTimeline
      | some t =>
        if t ∈ ownOf f p then .ok (setNode f c ⟨nd.own, some (p, t)⟩)
        else .error .InvalidCursor

/-- Whether `DeleteAllForksAfter(t)` invoked on `n` destroys node `k`: a
strict descendant of `n` whose fork time is strictly after `t`. -/
def prunedAt (f : Forest) (n : Nat) (t : Instant) (k : Nat) : Bool :=
  isDescendant f n k && k != n &&
    (match (parentOf f k).map Prod.snd with
     | some ft => decide (t < ft)
     | none => false)

/-- Remove every strict descendant fork of `n` whose fork time is strictly
after `t` (together with its subtree, which satisfies the same condition
because fork times never decrease towards the leaves). -/
def removeForksAfter (f : Forest) (n : Nat) (t : Instant) : Forest :=
  ⟨f.nodes.filter (fun pr => !prunedAt f n t pr.1), f.nextId⟩

/-- Modelled from the spec: `DeleteAllForksAfter(t)` removes every descendant
fork whose fork time is strictly after `t`.  The precondition — `t` at or
after the node's own fork time, or at or after the first sample for a root —
fails the `before the fork time` check. -/
def deleteAllForksAfter (f : Forest) (n : Nat) (t : Instant) :
    Except Err Forest :=
  match f.lookup n with
  | none => .error .InvalidCursor
  | some nd =>
    match nd.parent with
    | some (_, ft) =>
      if t < ft then .error .BeforeForkTime else .ok (removeForksAfter f n t)
    | none =>
      match nd.own.head? with
      | some h =>
        if t < h then .error .BeforeForkTime else .ok (removeForksAfter f n t)
      | none => .ok (removeForksAfter f n t)

/-- Well-formedness of a single node record: the own timeline is strictly
increasing and, for a non-root, the parent exists, was created earlier, the
fork time designates a parent sample (or equals the parent's own fork time
when the node forked at the parent's fork point), and every own sample lies
strictly after the fork time. -/
def nodeOkB (f : Forest) (n : Nat) (nd : Node) : Bool :=
  decide (List.Pairwise (· < ·) nd.own) &&
    match nd.parent with
    | none => true
    | some (p, ft) =>
      decide (p < n) && (f.lookup p).isSome &&
      (decide (ft ∈ ownOf f p) || decide ((parentOf f p).map Prod.snd = some ft)) &&
      nd.own.all (fun x => decide (ft < x))

/-- Well-formedness of the forest: ids are unique, below `nextId`, and every
node record is well formed. -/
def wfB (f : Forest) : Bool :=
  decide ((f.nodes.map Prod.fst).Nodup) &&
    f.nodes.all (fun pr => decide (pr.1 < f.nextId) && nodeOkB f pr.1 pr.2)

/-- The forest invariant, as a decidable proposition. -/
def WF (f : Forest) : Prop :=
  wfB f = true

instance (f : Forest) : Decidable (WF f) :=
  inferInstanceAs (Decidable (wfB f = true))

/-- The parent link relation along a chain: `a` is the parent of `b`. -/
def parentLink (f : Forest) (a b : Nat) : Prop :=
  (parentOf f b).map Prod.fst = some a

/-- A chain of nodes ending at `n` whose consecutive members are linked
parent to child. -/
def ChainTo (f : Forest) (n : Nat) (l : List Nat) : Prop :=
  l.getLast? = some n ∧ List.Chain' (parentLink f) l

/-- A valid iterator state for target `n`: the ancestry is a parent-linked
chain ending at `n`, the cursor designates an own sample of the front node,
and that sample does not lie past the fork point of the next chain node. -/
def ValidSt (f : Forest) (n a : Nat) (rest : List Nat) (t : Instant) : Prop :=
  ChainTo f n (a :: rest) ∧ t ∈ ownOf f a ∧ ∀ b ∈ rest.head?, t ≤ ftOf f b

/-- The instants an iterator in a valid state has yet to visit after the
current one: the rest of the front node's truncated segment, then the
segments of the rest of the chain. -/
def remSt (f : Forest) (a : Nat) (rest : List Nat) (t : Instant) : List Instant :=
  (boundsTW f rest (ownOf f a)).filter (fun x => decide (t < x)) ++ segsFrom f rest

/-!  Association-list lemmas for the node arena. -/

theorem lookup_mem_list {l : List (Nat × Node)} {n : Nat} {nd : Node}
    (h : List.lookup n l = some nd) : (n, nd) ∈ l := by
  induction l with
  | nil => simp [List.lookup] at h
  | cons pr tl ih =>
    obtain ⟨k, v⟩ := pr
    by_cases hk : n = k
    · subst hk
      simp [List.lookup_cons] at h
      simp [h]
    · simp [List.lookup_cons, beq_false_of_ne hk] at h
      exact List.mem_cons_of_mem _ (ih h)

theorem mem_lookup_list {l : List (Nat × Node)} {n : Nat} {nd : Node}
    (hnd : (l.map Prod.fst).Nodup) (h : (n, nd) ∈ l) :
    List.lookup n l = some nd := by
  induction l with
  | nil => simp at h
  | cons pr tl ih =>
    obtain ⟨k, v⟩ := pr
    simp only [List.map_cons, List.nodup_cons] at hnd
    rcases List.mem_cons.mp h with h1 | h1
    · obtain ⟨h1k, h1v⟩ := Prod.mk.injEq .. ▸ h1
      subst h1k
      simp [List.lookup_cons, h1v.symm]
    · have hne : n ≠ k := by
        intro hnk
        subst hnk
        exact hnd.1 (List.mem_map.mpr ⟨(n, nd), h1, rfl⟩)
      simp [List.lookup_cons, beq_false_of_ne hne]
      exact ih hnd.2 h1

theorem lookup_mem {f : Forest} {n : Nat} {nd : Node}
    (h : f.lookup n = some nd) : (n, nd) ∈ f.nodes :=
  lookup_mem_list h

theorem keys_setNode (f : Forest) (n : Nat) (nd : Node) :
    (setNode f n nd).nodes.map Prod.fst = f.nodes.map Prod.fst := by
  simp only [setNode, List.map_map]
  refine List.map_congr_left ?_
  intro pr _
  by_cases h : pr.1 = n <;> simp [h]

theorem setNode_nodes (f : Forest) (n : Nat) (nd : Node) :
    (setNode f n nd).nodes =
      f.nodes.map (fun pr => if pr.1 = n then (n, nd) else pr) := rfl

theorem lookup_map_set_self {l : List (Nat × Node)} {n : Nat} {nd₀ : Node}
    (nd : Node) (h : List.lookup n l = some nd₀) :
    List.lookup n (l.map (fun pr => if pr.1 = n then (n, nd) else pr)) =
      some nd := by
  induction l with
  | nil => simp [List.lookup] at h
  | cons pr tl ih =>
    obtain ⟨k, v⟩ := pr
    by_cases hk : n = k
    · subst hk
      simp [List.lookup_cons]
    · simp only [List.map_cons]
      have hif : (if (k, v).1 = n then (n, nd) else (k, v)) = (k, v) :=
        if_neg (fun hc => hk hc.symm)
      rw [hif]
      simp only [List.lookup_cons, beq_false_of_ne hk, cond_false] at h ⊢
      exact ih h

theorem lookup_setNode_self {f : Forest} {n : Nat} {nd₀ : Node} (nd : Node)
    (h : f.lookup n = some nd₀) :
    (setNode f n nd).lookup n = some nd := by
  unfold Forest.lookup at h ⊢
  rw [setNode_nodes]
  exact lookup_map_set_self nd h

theorem lookup_map_set_ne {l : List (Nat × Node)} {n k : Nat} (nd : Node)
    (h : k ≠ n) :
    List.lookup k (l.map (fun pr => if pr.1 = n then (n, nd) else pr)) =
      List.lookup k l := by
  induction l with
  | nil => simp
  | cons pr tl ih =>
    obtain ⟨k', v⟩ := pr
    by_cases hk : k' = n
    · subst hk
      have hbeq : (k == k') = false := beq_false_of_ne h
      simp [List.lookup_cons, hbeq, ih]
    · simp only [List.map_cons]
      have hif : (if (k', v).1 = n then (n, nd) else (k', v)) = (k', v) := by
        simp [hk]
      rw [hif]
      by_cases hkk : k = k'
      · subst hkk
        simp [List.lookup_cons]
      · simp [List.lookup_cons, beq_false_of_ne hkk, ih]

theorem lookup_setNode_ne {f : Forest} {n k : Nat} (nd : Node) (h : k ≠ n) :
    (setNode f n nd).lookup k = f.lookup k := by
  unfold Forest.lookup
  rw [setNode_nodes]
  exact lookup_map_set_ne nd h

theorem lookup_none_of_not_mem_keys {l : List (Nat × Node)} {k : Nat}
    (h : k ∉ l.map Prod.fst) : List.lookup k l = none := by
  induction l with
  | nil => simp
  | cons pr tl ih =>
    obtain ⟨k', v⟩ := pr
    simp only [List.map_cons, List.mem_cons, not_or] at h
    simp [List.lookup_cons, beq_false_of_ne h.1, ih h.2]

theorem lookup_filter {l : List (Nat × Node)} (P : Nat × Node → Bool) {k : Nat}
    (hnd : (l.map Prod.fst).Nodup) :
    List.lookup k (l.filter P) =
      match List.lookup k l with
      | none => none
      | some nd => if P (k, nd) then some nd else none := by
  induction l with
  | nil => simp
  | cons pr tl ih =>
    obtain ⟨k', v⟩ := pr
    simp only [List.map_cons, List.nodup_cons] at hnd
    by_cases hk : k = k'
    · subst hk
      by_cases hp : P (k, v)
      · simp [List.filter_cons, hp, List.lookup_cons]
      · simp only [List.filter_cons, hp, Bool.false_eq_true, if_false,
          List.lookup_cons, beq_self_eq_true, cond_true]
        have hnone : List.lookup k (tl.filter P) = none := by
          apply lookup_none_of_not_mem_keys
          intro hmem
          exact hnd.1 (List.map_subset Prod.fst (List.filter_subset' tl) hmem)
        simp [hnone, hp]
    · have hbeq : (k == k') = false := beq_false_of_ne hk
      by_cases hp : P (k', v)
      · simp [List.filter_cons, hp, List.lookup_cons, hbeq, ih hnd.2]
      · simp [List.filter_cons, hp, List.lookup_cons, hbeq, ih hnd.2]

/-- The forest invariant as a proposition with directly usable fields. -/
structure WFP (f : Forest) : Prop where
  nodup : (f.nodes.map Prod.fst).Nodup
  ltNext : ∀ pr ∈ f.nodes, pr.1 < f.nextId
  sorted : ∀ pr ∈ f.nodes, List.Pairwise (· < ·) pr.2.own
  pOk : ∀ pr ∈ f.nodes, ∀ p ft, pr.2.parent = some (p, ft) →
    p < pr.1 ∧ (f.lookup p).isSome = true ∧
    (ft ∈ ownOf f p ∨ (parentOf f p).map Prod.snd = some ft) ∧
    ∀ x ∈ pr.2.own, ft < x

theorem WF_iff (f : Forest) : WF f ↔ WFP f := by
  unfold WF wfB
  rw [Bool.and_eq_true, decide_eq_true_iff, List.all_eq_true]
  constructor
  · rintro ⟨hnd, hall⟩
    refine ⟨hnd, ?_, ?_, ?_⟩
    · intro pr hpr
      have h := hall pr hpr
      rw [Bool.and_eq_true, decide_eq_true_iff] at h
      exact h.1
    · intro pr hpr
      have h := hall pr hpr
      rw [Bool.and_eq_true] at h
      have h2 := h.2
      unfold nodeOkB at h2
      rw [Bool.and_eq_true, decide_eq_true_iff] at h2
      exact h2.1
    · intro pr hpr p ft hp
      have h := hall pr hpr
      rw [Bool.and_eq_true] at h
      have h2 := h.2
      unfold nodeOkB at h2
      rw [Bool.and_eq_true] at h2
      have h3 := h2.2
      rw [hp] at h3
      simp only [Bool.and_eq_true, decide_eq_true_iff, Bool.or_eq_true,
        List.all_eq_true] at h3
      obtain ⟨⟨⟨ha, hb⟩, hc⟩, hd⟩ := h3
      exact ⟨ha, hb, hc, fun x hx => hd x hx⟩
  · rintro ⟨hnd, hlt, hsort, hpok⟩
    refine ⟨hnd, ?_⟩
    intro pr hpr
    rw [Bool.and_eq_true, decide_eq_true_iff]
    refine ⟨hlt pr hpr, ?_⟩
    unfold nodeOkB
    rw [Bool.and_eq_true, decide_eq_true_iff]
    refine ⟨hsort pr hpr, ?_⟩
    rcases hpar : pr.2.parent with _ | ⟨p, ft⟩
    · rfl
    · have h := hpok pr hpr p ft hpar
      simp only [Bool.and_eq_true, decide_eq_true_iff, Bool.or_eq_true,
        List.all_eq_true]
      exact ⟨⟨⟨h.1, h.2.1⟩, h.2.2.1⟩, fun x hx => h.2.2.2 x hx⟩

theorem parentOf_iff {f : Forest} {n : Nat} {pft : Nat × Instant} :
    parentOf f n = some pft ↔
      ∃ nd, f.lookup n = some nd ∧ nd.parent = some pft := by
  unfold parentOf
  cases f.lookup n <;> simp

theorem ownOf_eq {f : Forest} {n : Nat} {nd : Node}
    (h : f.lookup n = some nd) : ownOf f n = nd.own := by
  unfold ownOf
  rw [h]
  rfl

theorem ownOf_of_none {f : Forest} {n : Nat}
    (h : f.lookup n = none) : ownOf f n = [] := by
  unfold ownOf
  rw [h]
  rfl

theorem parentOf_eq {f : Forest} {n : Nat} {nd : Node}
    (h : f.lookup n = some nd) : parentOf f n = nd.parent := by
  unfold parentOf
  rw [h]
  rfl

theorem WFP.own_sorted {f : Forest} (h : WFP f) (n : Nat) :
    List.Pairwise (· < ·) (ownOf f n) := by
  rcases hl : f.lookup n with _ | nd
  · rw [ownOf_of_none hl]
    exact List.Pairwise.nil
  · rw [ownOf_eq hl]
    exact h.sorted (n, nd) (lookup_mem hl)

theorem WFP.parent_lt {f : Forest} (h : WFP f) {n p : Nat} {ft : Instant}
    (hp : parentOf f n = some (p, ft)) : p < n := by
  obtain ⟨nd, hl, hpar⟩ := parentOf_iff.mp hp
  exact (h.pOk (n, nd) (lookup_mem hl) p ft hpar).1

theorem WFP.parent_isSome {f : Forest} (h : WFP f) {n p : Nat} {ft : Instant}
    (hp : parentOf f n = some (p, ft)) : (f.lookup p).isSome = true := by
  obtain ⟨nd, hl, hpar⟩ := parentOf_iff.mp hp
  exact (h.pOk (n, nd) (lookup_mem hl) p ft hpar).2.1

theorem WFP.ft_mem {f : Forest} (h : WFP f) {n p : Nat} {ft : Instant}
    (hp : parentOf f n = some (p, ft)) :
    ft ∈ ownOf f p ∨ (parentOf f p).map Prod.snd = some ft := by
  obtain ⟨nd, hl, hpar⟩ := parentOf_iff.mp hp
  exact (h.pOk (n, nd) (lookup_mem hl) p ft hpar).2.2.1

theorem WFP.own_gt {f : Forest} (h : WFP f) {n p : Nat} {ft : Instant}
    (hp : parentOf f n = some (p, ft)) : ∀ x ∈ ownOf f n, ft < x := by
  obtain ⟨nd, hl, hpar⟩ := parentOf_iff.mp hp
  rw [ownOf_eq hl]
  exact (h.pOk (n, nd) (lookup_mem hl) p ft hpar).2.2.2

/-- Ids strictly decrease along parent links. -/
def PLt (f : Forest) : Prop :=
  ∀ n p, ∀ ft : Instant, parentOf f n = some (p, ft) → p < n

theorem WFP.plt {f : Forest} (h : WFP f) : PLt f :=
  fun _ _ _ hp => h.parent_lt hp

/-- Fork times never decrease along a parent link between two forks. -/
theorem WFP.ft_mono {f : Forest} (h : WFP f) {n p q : Nat} {ft ftp : Instant}
    (hp : parentOf f n = some (p, ft)) (hq : parentOf f p = some (q, ftp)) :
    ftp ≤ ft := by
  rcases h.ft_mem hp with hm | hm
  · exact le_of_lt (h.own_gt hq ft hm)
  · rw [hq] at hm
    simp only [Option.map_some', Option.some.injEq] at hm
    exact le_of_eq hm

/-!  Fuel irrelevance and unfolding for the parent-walk recursions. -/

theorem effA_irrel {f : Forest} (hplt : PLt f) :
    ∀ fuel₁, ∀ n, n < fuel₁ → ∀ fuel₂, n < fuel₂ →
      effA f fuel₁ n = effA f fuel₂ n := by
  intro fuel₁
  induction fuel₁ with
  | zero => omega
  | succ k ih =>
    intro n hn fuel₂ h2
    cases fuel₂ with
    | zero => omega
    | succ k₂ =>
      simp only [effA]
      rcases hp : parentOf f n with _ | ⟨p, ft⟩
      · rfl
      · have hpn : p < n := hplt n p ft hp
        show (if p < n then (effA f k p).takeWhile (fun x => decide (x ≤ ft)) ++ ownOf f n else ownOf f n) =
          (if p < n then (effA f k₂ p).takeWhile (fun x => decide (x ≤ ft)) ++ ownOf f n else ownOf f n)
        rw [if_pos hpn, if_pos hpn]
        have hpk : p < k := by omega
        rw [ih p hpk k₂ (by omega)]

theorem eff_root {f : Forest} {n : Nat} (h : parentOf f n = none) :
    eff f n = ownOf f n := by
  unfold eff
  simp only [effA]
  rw [h]

theorem eff_fork {f : Forest} (hplt : PLt f) {n p : Nat} {ft : Instant}
    (hp : parentOf f n = some (p, ft)) :
    eff f n = (eff f p).takeWhile (fun x => decide (x ≤ ft)) ++ ownOf f n := by
  have hpn : p < n := hplt n p ft hp
  unfold eff
  conv =>
    lhs
    simp only [effA]
  rw [hp]
  show (if p < n then (effA f n p).takeWhile (fun x => decide (x ≤ ft)) ++ ownOf f n else ownOf f n) = _
  rw [if_pos hpn]
  congr 1
  exact congrArg _ (effA_irrel hplt n p hpn (p + 1) (by omega))

theorem pathToA_irrel {f : Forest} (hplt : PLt f) :
    ∀ fuel₁, ∀ n, n < fuel₁ → ∀ fuel₂, n < fuel₂ →
      pathToA f fuel₁ n = pathToA f fuel₂ n := by
  intro fuel₁
  induction fuel₁ with
  | zero => omega
  | succ k ih =>
    intro n hn fuel₂ h2
    cases fuel₂ with
    | zero => omega
    | succ k₂ =>
      simp only [pathToA]
      rcases hp : parentOf f n with _ | ⟨p, ft⟩
      · rfl
      · have hpn : p < n := hplt n p ft hp
        show (if p < n then pathToA f k p ++ [n] else [n]) =
          (if p < n then pathToA f k₂ p ++ [n] else [n])
        rw [if_pos hpn, if_pos hpn, ih p (by omega) k₂ (by omega)]

theorem pathTo_root {f : Forest} {n : Nat} (h : parentOf f n = none) :
    pathTo f n = [n] := by
  unfold pathTo
  simp only [pathToA]
  rw [h]

theorem pathTo_step {f : Forest} (hplt : PLt f) {n p : Nat} {ft : Instant}
    (hp : parentOf f n = some (p, ft)) :
    pathTo f n = pathTo f p ++ [n] := by
  have hpn : p < n := hplt n p ft hp
  unfold pathTo
  conv =>
    lhs
    simp only [pathToA]
  rw [hp]
  show (if p < n then pathToA f n p ++ [n] else [n]) = _
  rw [if_pos hpn]
  rw [pathToA_irrel hplt n p hpn (p + 1) (by omega)]

theorem ascendChainA_irrel {f : Forest} {t : Instant} (hplt : PLt f) :
    ∀ fuel₁, ∀ n, n < fuel₁ → ∀ fuel₂, n < fuel₂ →
      ascendChainA f t fuel₁ n = ascendChainA f t fuel₂ n := by
  intro fuel₁
  induction fuel₁ with
  | zero => omega
  | succ k ih =>
    intro n hn fuel₂ h2
    cases fuel₂ with
    | zero => omega
    | succ k₂ =>
      simp only [ascendChainA]
      by_cases hmem : t ∈ ownOf f n
      · rw [if_pos hmem, if_pos hmem]
      · rw [if_neg hmem, if_neg hmem]
        rcases hp : parentOf f n with _ | ⟨p, ft⟩
        · rfl
        · have hpn : p < n := hplt n p ft hp
          show (if p < n then (ascendChainA f t k p).map (fun ch => ch ++ [n]) else none) =
            (if p < n then (ascendChainA f t k₂ p).map (fun ch => ch ++ [n]) else none)
          rw [if_pos hpn, if_pos hpn, ih p (by omega) k₂ (by omega)]

theorem ascendChain_own {f : Forest} {t : Instant} {p : Nat}
    (h : t ∈ ownOf f p) : ascendChain f t p = some [p] := by
  unfold ascendChain
  simp only [ascendChainA]
  rw [if_pos h]

theorem ascendChain_up {f : Forest} (hplt : PLt f) {t ft' : Instant}
    {p q : Nat} (h : t ∉ ownOf f p) (hq : parentOf f p = some (q, ft')) :
    ascendChain f t p = (ascendChain f t q).map (fun ch => ch ++ [p]) := by
  have hqp : q < p := hplt p q ft' hq
  unfold ascendChain
  conv =>
    lhs
    simp only [ascendChainA]
  rw [if_neg h, hq]
  show (if q < p then (ascendChainA f t p q).map (fun ch => ch ++ [p]) else none) = _
  rw [if_pos hqp]
  rw [ascendChainA_irrel hplt p q hqp (q + 1) (by omega)]

theorem ascendChain_dead {f : Forest} {t : Instant} {p : Nat}
    (h : t ∉ ownOf f p) (hq : parentOf f p = none) :
    ascendChain f t p = none := by
  unfold ascendChain
  simp only [ascendChainA]
  rw [if_neg h, hq]

theorem isDescendantA_irrel {f : Forest} {a : Nat} (hplt : PLt f) :
    ∀ fuel₁, ∀ n, n < fuel₁ → ∀ fuel₂, n < fuel₂ →
      isDescendantA f a fuel₁ n = isDescendantA f a fuel₂ n := by
  intro fuel₁
  induction fuel₁ with
  | zero => omega
  | succ k ih =>
    intro n hn fuel₂ h2
    cases fuel₂ with
    | zero => omega
    | succ k₂ =>
      simp only [isDescendantA]
      by_cases ha : n = a
      · rw [if_pos ha, if_pos ha]
      · rw [if_neg ha, if_neg ha]
        rcases hp : parentOf f n with _ | ⟨p, ft⟩
        · rfl
        · have hpn : p < n := hplt n p ft hp
          show (if p < n then isDescendantA f a k p else false) =
            (if p < n then isDescendantA f a k₂ p else false)
          rw [if_pos hpn, if_pos hpn, ih p (by omega) k₂ (by omega)]

theorem isDescendant_self (f : Forest) (a : Nat) :
    isDescendant f a a = true := by
  unfold isDescendant
  simp [isDescendantA]

theorem isDescendant_step {f : Forest} (hplt : PLt f) {a k p : Nat}
    {ft : Instant} (hk : k ≠ a) (hp : parentOf f k = some (p, ft)) :
    isDescendant f a k = isDescendant f a p := by
  have hpk : p < k := hplt k p ft hp
  unfold isDescendant
  conv =>
    lhs
    simp only [isDescendantA]
  rw [if_neg hk, hp]
  show (if p < k then isDescendantA f a k p else false) = _
  rw [if_pos hpk]
  exact isDescendantA_irrel hplt k p hpk (p + 1) (by omega)

theorem isDescendant_root {f : Forest} {a k : Nat} (hk : k ≠ a)
    (hp : parentOf f k = none) : isDescendant f a k = false := by
  unfold isDescendant
  simp only [isDescendantA]
  rw [if_neg hk, hp]

/-!  Sorted-list toolkit: strictly increasing timelines under filter,
takeWhile and find?. -/

theorem sorted_first_le {l : List Instant} {t s : Instant}
    (hs : List.Pairwise (· < ·) l)
    (hf : l.find? (fun x => decide (t < x)) = some s) :
    ∀ x ∈ l, t < x → s ≤ x := by
  induction l with
  | nil => simp at hf
  | cons h tl ih =>
    rw [List.pairwise_cons] at hs
    by_cases hth : t < h
    · rw [List.find?_cons_of_pos _ (by simpa using hth)] at hf
      cases hf
      intro x hx _
      rcases List.mem_cons.mp hx with rfl | hx
      · exact le_refl _
      · exact le_of_lt (hs.1 x hx)
    · rw [List.find?_cons_of_neg _ (by simpa using hth)] at hf
      intro x hx htx
      rcases List.mem_cons.mp hx with rfl | hx
      · exact absurd htx hth
      · exact ih hs.2 hf x hx htx

theorem sorted_filter_peel {l : List Instant} {t s : Instant}
    (hs : List.Pairwise (· < ·) l)
    (hf : l.find? (fun x => decide (t < x)) = some s) :
    l.filter (fun x => decide (t < x)) =
      s :: l.filter (fun x => decide (s < x)) := by
  induction l with
  | nil => simp at hf
  | cons h tl ih =>
    rw [List.pairwise_cons] at hs
    by_cases hth : t < h
    · rw [List.find?_cons_of_pos _ (by simpa using hth)] at hf
      cases hf
      rw [List.filter_cons_of_pos (by simpa using hth),
        List.filter_cons_of_neg (by simp)]
      congr 1
      refine List.filter_congr ?_
      intro x hx
      have hsx : s < x := hs.1 x hx
      simp [hsx, lt_trans hth hsx]
    · rw [List.find?_cons_of_neg _ (by simpa using hth)] at hf
      have hsh : h < s := by
        have hmem := List.mem_of_find?_eq_some hf
        exact hs.1 s hmem
      rw [List.filter_cons_of_neg (by simpa using hth),
        List.filter_cons_of_neg (by simp [not_lt.mpr (le_of_lt hsh)])]
      exact ih hs.2 hf

theorem filter_none_of_find_none {l : List Instant} {t : Instant}
    (hf : l.find? (fun x => decide (t < x)) = none) :
    l.filter (fun x => decide (t < x)) = [] := by
  rw [List.filter_eq_nil_iff]
  intro x hx
  have := List.find?_eq_none.mp hf x hx
  simpa using this

theorem sorted_find_takeWhile {l : List Instant} {t s b : Instant}
    (hs : List.Pairwise (· < ·) l)
    (hf : l.find? (fun x => decide (t < x)) = some s) (hsb : s ≤ b) :
    (l.takeWhile (fun x => decide (x ≤ b))).find?
      (fun x => decide (t < x)) = some s := by
  induction l with
  | nil => simp at hf
  | cons h tl ih =>
    rw [List.pairwise_cons] at hs
    by_cases hth : t < h
    · rw [List.find?_cons_of_pos _ (by simpa using hth)] at hf
      cases hf
      rw [List.takeWhile_cons_of_pos (by simpa using hsb)]
      exact List.find?_cons_of_pos _ (by simpa using hth)
    · rw [List.find?_cons_of_neg _ (by simpa using hth)] at hf
      have hsh : h < s := hs.1 s (List.mem_of_find?_eq_some hf)
      have hhb : h ≤ b := le_of_lt (lt_of_lt_of_le hsh hsb)
      rw [List.takeWhile_cons_of_pos (by simpa using hhb)]
      rw [List.find?_cons_of_neg _ (by simpa using hth)]
      exact ih hs.2 hf

theorem sorted_takeWhile_filter_nil_of_gt {l : List Instant} {t s b : Instant}
    (hs : List.Pairwise (· < ·) l)
    (hf : l.find? (fun x => decide (t < x)) = some s) (hsb : ¬ s ≤ b) :
    (l.takeWhile (fun x => decide (x ≤ b))).filter
      (fun x => decide (t < x)) = [] := by
  rw [List.filter_eq_nil_iff]
  intro x hx
  have hxl : x ∈ l := (List.takeWhile_sublist _).mem hx
  have hxb : x ≤ b := by simpa using List.mem_takeWhile_imp hx
  intro htx
  have hsx : s ≤ x := sorted_first_le hs hf x hxl (by simpa using htx)
  exact hsb (le_trans hsx hxb)

theorem takeWhile_filter_nil_of_none {l : List Instant} {t b : Instant}
    (hf : l.find? (fun x => decide (t < x)) = none) :
    (l.takeWhile (fun x => decide (x ≤ b))).filter
      (fun x => decide (t < x)) = [] := by
  rw [List.filter_eq_nil_iff]
  intro x hx
  have hxl : x ∈ l := (List.takeWhile_sublist _).mem hx
  have := List.find?_eq_none.mp hf x hxl
  simpa using this

theorem sorted_filter_head_tail {l : List Instant} {u : Instant}
    {tl : List Instant} (hs : List.Pairwise (· < ·) l) (hl : l = u :: tl) :
    l.filter (fun x => decide (u < x)) = tl := by
  subst hl
  rw [List.pairwise_cons] at hs
  rw [List.filter_cons_of_neg (by simp)]
  rw [List.filter_eq_self]
  intro x hx
  simpa using hs.1 x hx

theorem mem_takeWhile_le_self {l : List Instant} {x : Instant}
    (hs : List.Pairwise (· < ·) l) (hx : x ∈ l) :
    x ∈ l.takeWhile (fun y => decide (y ≤ x)) := by
  induction l with
  | nil => simp at hx
  | cons h tl ih =>
    rw [List.pairwise_cons] at hs
    rcases List.mem_cons.mp hx with rfl | hx
    · rw [List.takeWhile_cons_of_pos (by simp)]
      exact List.mem_cons_self _ _
    · have hhx : h < x := hs.1 x hx
      rw [List.takeWhile_cons_of_pos (by simpa using le_of_lt hhx)]
      exact List.mem_cons_of_mem _ (ih hs.2 hx)

/-!  The ancestry path: shape, chain structure and id ordering. -/

theorem pathTo_getLast {f : Forest} (hplt : PLt f) (n : Nat) :
    (pathTo f n).getLast? = some n := by
  induction n using Nat.strong_induction_on with
  | _ n ih =>
    rcases hp : parentOf f n with _ | ⟨p, ft⟩
    · rw [pathTo_root hp]
      rfl
    · rw [pathTo_step hplt hp]
      exact List.getLast?_concat _

theorem pathTo_ne_nil {f : Forest} (hplt : PLt f) (n : Nat) :
    pathTo f n ≠ [] := by
  intro hc
  have := pathTo_getLast hplt n
  rw [hc] at this
  simp at this

theorem pathTo_chain {f : Forest} (hplt : PLt f) (n : Nat) :
    List.Chain' (parentLink f) (pathTo f n) := by
  induction n using Nat.strong_induction_on with
  | _ n ih =>
    rcases hp : parentOf f n with _ | ⟨p, ft⟩
    · rw [pathTo_root hp]
      simp
    · rw [pathTo_step hplt hp]
      rw [List.chain'_append]
      refine ⟨ih p (hplt n p ft hp), by simp, ?_⟩
      intro x hx y hy
      rw [pathTo_getLast hplt p] at hx
      simp only [Option.mem_def, Option.some.injEq] at hx
      simp only [List.head?_cons, Option.mem_def, Option.some.injEq] at hy
      subst hx
      subst hy
      unfold parentLink
      rw [hp]
      rfl

theorem pathTo_mem_le {f : Forest} (hplt : PLt f) (n : Nat) :
    ∀ x ∈ pathTo f n, x ≤ n := by
  induction n using Nat.strong_induction_on with
  | _ n ih =>
    rcases hp : parentOf f n with _ | ⟨p, ft⟩
    · rw [pathTo_root hp]
      intro x hx
      simp only [List.mem_singleton] at hx
      omega
    · rw [pathTo_step hplt hp]
      intro x hx
      rcases List.mem_append.mp hx with hx | hx
      · have := ih p (hplt n p ft hp) x hx
        have := hplt n p ft hp
        omega
      · simp only [List.mem_singleton] at hx
        omega

theorem pathTo_sorted {f : Forest} (hplt : PLt f) (n : Nat) :
    List.Pairwise (· < ·) (pathTo f n) := by
  induction n using Nat.strong_induction_on with
  | _ n ih =>
    rcases hp : parentOf f n with _ | ⟨p, ft⟩
    · rw [pathTo_root hp]
      simp
    · rw [pathTo_step hplt hp]
      rw [List.pairwise_append]
      refine ⟨ih p (hplt n p ft hp), by simp, ?_⟩
      intro x hx y hy
      simp only [List.mem_singleton] at hy
      have h1 := pathTo_mem_le hplt p x hx
      have h2 := hplt n p ft hp
      omega

/-!  Fork times never decrease towards the leaves. -/

theorem ftOf_eq {f : Forest} {n p : Nat} {ft : Instant}
    (hp : parentOf f n = some (p, ft)) : ftOf f n = ft := by
  unfold ftOf
  rw [hp]
  rfl

theorem ft_chain_mono {f : Forest} (hw : WFP f) :
    ∀ l (b p : Nat), List.Chain' (parentLink f) (b :: l) →
      (b :: l).getLast? = some p → (parentOf f b).isSome = true →
      ftOf f b ≤ ftOf f p := by
  intro l
  induction l with
  | nil =>
    intro b p _ hlast _
    simp only [List.getLast?_singleton, Option.some.injEq] at hlast
    subst hlast
    exact le_refl _
  | cons c l ih =>
    intro b p hchain hlast hsome
    rw [List.chain'_cons] at hchain
    have hlink : parentLink f b c := hchain.1
    unfold parentLink at hlink
    rcases hc : parentOf f c with _ | ⟨b', ftc⟩
    · rw [hc] at hlink
      simp at hlink
    · rw [hc] at hlink
      simp only [Option.map_some', Option.some.injEq] at hlink
      rw [hlink] at hc
      rcases hb : parentOf f b with _ | ⟨q, ftb⟩
      · rw [hb] at hsome
        simp at hsome
      · have step : ftb ≤ ftc := hw.ft_mono hc hb
        have tailstep : ftOf f c ≤ ftOf f p := by
          refine ih c p hchain.2 ?_ ?_
          · simpa using hlast
          · rw [hc]
            rfl
        rw [ftOf_eq hb]
        rw [ftOf_eq hc] at tailstep
        exact le_trans step tailstep

/-!  Decomposition of the effective timeline along the ancestry path. -/

theorem segsFrom_append {f : Forest} (hw : WFP f) {n : Nat} :
    ∀ l, l ≠ [] → List.Chain' (parentLink f) (l ++ [n]) →
      segsFrom f (l ++ [n]) =
        (segsFrom f l).takeWhile (fun x => decide (x ≤ ftOf f n)) ++
          ownOf f n := by
  intro l
  induction l with
  | nil => intro h; exact absurd rfl h
  | cons a l ih =>
    intro _ hchain
    cases l with
    | nil =>
      simp only [List.cons_append, List.nil_append]
      show boundsTW f [n] (ownOf f a) ++ segsFrom f [n] =
        (segsFrom f [a]).takeWhile (fun x => decide (x ≤ ftOf f n)) ++
          ownOf f n
      unfold segsFrom boundsTW
      simp [segsFrom, boundsTW]
    | cons b l' =>
      simp only [List.cons_append]
      show boundsTW f ((b :: l') ++ [n]) (ownOf f a) ++
          segsFrom f ((b :: l') ++ [n]) = _
      have hbtw : boundsTW f ((b :: l') ++ [n]) (ownOf f a) =
          boundsTW f (b :: l') (ownOf f a) := rfl
      rw [hbtw]
      have hchain' : List.Chain' (parentLink f) ((b :: l') ++ [n]) := by
        rw [List.cons_append] at hchain
        exact (List.chain'_cons'.mp hchain).2
      rw [ih (by simp) hchain']
      show boundsTW f (b :: l') (ownOf f a) ++
          ((segsFrom f (b :: l')).takeWhile (fun x => decide (x ≤ ftOf f n)) ++
            ownOf f n) =
        (boundsTW f (b :: l') (ownOf f a) ++
            segsFrom f (b :: l')).takeWhile (fun x => decide (x ≤ ftOf f n)) ++
          ownOf f n
      rw [List.takeWhile_append_of_pos ?hall]
      · rw [List.append_assoc]
      case hall =>
        intro x hx
        show decide (x ≤ ftOf f n) = true
        have hxb : x ≤ ftOf f b := by
          have := List.mem_takeWhile_imp hx
          simpa using this
        have hbn : ftOf f b ≤ ftOf f n := by
          refine ft_chain_mono hw (l' ++ [n]) b n ?_ ?_ ?_
          · exact (List.chain'_cons'.mp hchain).2
          · show ((b :: l') ++ [n]).getLast? = some n
            exact List.getLast?_concat _
          · have hlink := (List.chain'_cons'.mp hchain).1 b (by simp)
            unfold parentLink at hlink
            rcases hb : parentOf f b with _ | pr
            · rw [hb] at hlink
              simp at hlink
            · rfl
        simp only [decide_eq_true_eq]
        exact le_trans hxb hbn

theorem eff_eq_segs {f : Forest} (hw : WFP f) (n : Nat) :
    eff f n = segsFrom f (pathTo f n) := by
  induction n using Nat.strong_induction_on with
  | _ n ih =>
    rcases hp : parentOf f n with _ | ⟨p, ft⟩
    · rw [eff_root hp, pathTo_root hp]
      show ownOf f n = boundsTW f [] (ownOf f n) ++ segsFrom f []
      unfold boundsTW segsFrom
      simp
    · have hplt := hw.plt
      rw [eff_fork hplt hp, pathTo_step hplt hp]
      rw [segsFrom_append hw (pathTo f p) (pathTo_ne_nil hplt p) ?hch]
      · rw [ih p (hplt n p ft hp), ftOf_eq hp]
      case hch =>
        have hc := pathTo_chain hplt n
        rw [pathTo_step hplt hp] at hc
        exact hc

theorem eff_sorted {f : Forest} (hw : WFP f) (n : Nat) :
    List.Pairwise (· < ·) (eff f n) := by
  induction n using Nat.strong_induction_on with
  | _ n ih =>
    rcases hp : parentOf f n with _ | ⟨p, ft⟩
    · rw [eff_root hp]
      exact hw.own_sorted n
    · rw [eff_fork hw.plt hp]
      rw [List.pairwise_append]
      refine ⟨(ih p (hw.plt n p ft hp)).sublist (List.takeWhile_sublist _),
        hw.own_sorted n, ?_⟩
      intro x hx y hy
      have hxf : x ≤ ft := by simpa using List.mem_takeWhile_imp hx
      have hfy : ft < y := hw.own_gt hp y hy
      exact lt_of_le_of_lt hxf hfy

theorem ft_in_eff {f : Forest} (hw : WFP f) :
    ∀ p n, ∀ ft : Instant, parentOf f n = some (p, ft) → ft ∈ eff f p := by
  intro p
  induction p using Nat.strong_induction_on with
  | _ p ih =>
    intro n ft hp
    rcases hw.ft_mem hp with hm | hm
    · rcases hq : parentOf f p with _ | ⟨q, ftp⟩
      · rw [eff_root hq]
        exact hm
      · rw [eff_fork hw.plt hq]
        exact List.mem_append_right _ hm
    · rcases hq : parentOf f p with _ | ⟨q, ftp⟩
      · rw [hq] at hm
        simp at hm
      · rw [hq] at hm
        simp only [Option.map_some', Option.some.injEq] at hm
        rw [hm] at hq
        rw [eff_fork hw.plt hq]
        refine List.mem_append_left _ ?_
        have hin : ft ∈ eff f q := ih q (hw.plt p q ft hq) p ft hq
        exact mem_takeWhile_le_self (eff_sorted hw q) hin

theorem head?_ex {α : Type} {l : List α} {u : α} (h : l.head? = some u) :
    ∃ tl, l = u :: tl := by
  cases l with
  | nil => simp at h
  | cons x tl =>
    simp only [List.head?_cons, Option.some.injEq] at h
    exact ⟨tl, by rw [h]⟩

theorem chainTo_tail {f : Forest} {n a b : Nat} {rest : List Nat}
    (h : ChainTo f n (a :: b :: rest)) : ChainTo f n (b :: rest) := by
  refine ⟨?_, h.2.tail⟩
  have := h.1
  rwa [List.getLast?_cons_cons] at this

theorem descend_spec {f : Forest} (hw : WFP f) {n : Nat} :
    ∀ l, ChainTo f n l → l ≠ [] →
      (segsFrom f l = [] → descendList f n l = endIt n) ∧
      (∀ u rest', segsFrom f l = u :: rest' →
        ∃ a' l', descendList f n l = ⟨n, a' :: l', some u⟩ ∧
          ValidSt f n a' l' u ∧ remSt f a' l' u = rest') := by
  intro l
  induction l with
  | nil => intro _ h; exact absurd rfl h
  | cons a rest ih =>
    intro hct _
    cases rest with
    | nil =>
      constructor
      · intro hseg
        have hown : ownOf f a = [] := by
          simpa [segsFrom, boundsTW] using hseg
        simp [descendList, hown]
      · intro u rest' hseg
        have hown : ownOf f a = u :: rest' := by
          simpa [segsFrom, boundsTW] using hseg
        refine ⟨a, [], ?_, ⟨hct, ?_, ?_⟩, ?_⟩
        · simp [descendList, hown]
        · rw [hown]
          exact List.mem_cons_self _ _
        · intro b hb
          simp at hb
        · unfold remSt
          show (boundsTW f [] (ownOf f a)).filter (fun x => decide (u < x)) ++
            segsFrom f [] = rest'
          unfold boundsTW segsFrom
          rw [List.append_nil]
          exact sorted_filter_head_tail (hw.own_sorted a) hown
    | cons b rest₂ =>
      have hct' : ChainTo f n (b :: rest₂) := chainTo_tail hct
      have ihb := ih hct' (by simp)
      rcases hhead : (ownOf f a).head? with _ | u0
      · have hownnil : ownOf f a = [] := by
          cases howe : ownOf f a
          · rfl
          · rw [howe] at hhead
            simp at hhead
        have hsegeq : segsFrom f (a :: b :: rest₂) = segsFrom f (b :: rest₂) := by
          simp [segsFrom, boundsTW, hownnil]
        have hdesc : descendList f n (a :: b :: rest₂) =
            descendList f n (b :: rest₂) := by
          simp [descendList, hhead]
        rw [hsegeq, hdesc]
        exact ihb
      · obtain ⟨tl, hown⟩ := head?_ex hhead
        by_cases hub : u0 ≤ ftOf f b
        · have hdesc : descendList f n (a :: b :: rest₂) =
              ⟨n, a :: b :: rest₂, some u0⟩ := by
            simp only [descendList, hhead]
            rw [if_pos hub]
          have htw : (ownOf f a).takeWhile (fun x => decide (x ≤ ftOf f b)) =
              u0 :: tl.takeWhile (fun x => decide (x ≤ ftOf f b)) := by
            rw [hown]
            exact List.takeWhile_cons_of_pos (by simpa using hub)
          have hsegeq : segsFrom f (a :: b :: rest₂) =
              u0 :: (tl.takeWhile (fun x => decide (x ≤ ftOf f b)) ++
                segsFrom f (b :: rest₂)) := by
            show (ownOf f a).takeWhile (fun x => decide (x ≤ ftOf f b)) ++
              segsFrom f (b :: rest₂) = _
            rw [htw]
            simp
          constructor
          · intro hseg
            rw [hsegeq] at hseg
            simp at hseg
          · intro u rest' hseg
            rw [hsegeq] at hseg
            have hu : u0 = u := by
              have := hseg
              simp only [List.cons.injEq] at this
              exact this.1
            have hrest' : tl.takeWhile (fun x => decide (x ≤ ftOf f b)) ++
                segsFrom f (b :: rest₂) = rest' := by
              have := hseg
              simp only [List.cons.injEq] at this
              exact this.2
            subst hu
            refine ⟨a, b :: rest₂, hdesc, ⟨hct, ?_, ?_⟩, ?_⟩
            · rw [hown]
              exact List.mem_cons_self _ _
            · intro c hc
              simp only [List.head?_cons, Option.mem_def, Option.some.injEq] at hc
              rw [← hc]
              exact hub
            · unfold remSt
              show ((ownOf f a).takeWhile (fun x => decide (x ≤ ftOf f b))).filter
                  (fun x => decide (u0 < x)) ++ segsFrom f (b :: rest₂) = rest'
              rw [sorted_filter_head_tail
                ((hw.own_sorted a).sublist (List.takeWhile_sublist _)) htw]
              exact hrest'
        · have htw : (ownOf f a).takeWhile (fun x => decide (x ≤ ftOf f b)) = [] := by
            rw [hown]
            exact List.takeWhile_cons_of_neg (by simpa using hub)
          have hsegeq : segsFrom f (a :: b :: rest₂) = segsFrom f (b :: rest₂) := by
            show (ownOf f a).takeWhile (fun x => decide (x ≤ ftOf f b)) ++
              segsFrom f (b :: rest₂) = _
            rw [htw]
            simp
          have hdesc : descendList f n (a :: b :: rest₂) =
              descendList f n (b :: rest₂) := by
            simp only [descendList, hhead]
            rw [if_neg hub]
          rw [hsegeq, hdesc]
          exact ihb

theorem remSt_nil (f : Forest) (a : Nat) (t : Instant) :
    remSt f a [] t = (ownOf f a).filter (fun x => decide (t < x)) := by
  unfold remSt
  show (ownOf f a).filter (fun x => decide (t < x)) ++ segsFrom f [] = _
  show (ownOf f a).filter (fun x => decide (t < x)) ++ [] = _
  rw [List.append_nil]

theorem remSt_cons (f : Forest) (a b : Nat) (r : List Nat) (t : Instant) :
    remSt f a (b :: r) t =
      ((ownOf f a).takeWhile (fun x => decide (x ≤ ftOf f b))).filter
        (fun x => decide (t < x)) ++ segsFrom f (b :: r) := rfl

theorem next_spec {f : Forest} (hw : WFP f) {n a : Nat} {rest : List Nat}
    {t : Instant} (hv : ValidSt f n a rest t) :
    (remSt f a rest t = [] →
      nextIt f ⟨n, a :: rest, some t⟩ = some (endIt n)) ∧
    (∀ u rest', remSt f a rest t = u :: rest' →
      ∃ a' l', nextIt f ⟨n, a :: rest, some t⟩ = some ⟨n, a' :: l', some u⟩ ∧
        ValidSt f n a' l' u ∧ remSt f a' l' u = rest') := by
  obtain ⟨hct, hmem, hbound⟩ := hv
  cases rest with
  | nil =>
    rcases hsucc : succOwn (ownOf f a) t with _ | s
    · have hfil : (ownOf f a).filter (fun x => decide (t < x)) = [] :=
        filter_none_of_find_none hsucc
      constructor
      · intro _
        simp [nextIt, hsucc]
      · intro u rest' hseg
        rw [remSt_nil, hfil] at hseg
        simp at hseg
    · have hpeel := sorted_filter_peel (hw.own_sorted a) hsucc
      constructor
      · intro hseg
        rw [remSt_nil, hpeel] at hseg
        simp at hseg
      · intro u rest' hseg
        rw [remSt_nil, hpeel] at hseg
        simp only [List.cons.injEq] at hseg
        obtain ⟨hu, hrest'⟩ := hseg
        subst hu
        refine ⟨a, [], ?_, ⟨hct, ?_, ?_⟩, ?_⟩
        · simp [nextIt, hsucc]
        · exact List.mem_of_find?_eq_some hsucc
        · intro c hc
          simp at hc
        · rw [remSt_nil]
          exact hrest'
  | cons b rest₂ =>
    have hbnd : t ≤ ftOf f b := hbound b (by simp)
    have hct₂ : ChainTo f n (b :: rest₂) := chainTo_tail hct
    have hds := descend_spec hw (b :: rest₂) hct₂ (by simp)
    rcases hsucc : succOwn (ownOf f a) t with _ | s
    · have hfil := takeWhile_filter_nil_of_none (b := ftOf f b) hsucc
      have hremeq : remSt f a (b :: rest₂) t = segsFrom f (b :: rest₂) := by
        rw [remSt_cons, hfil]
        rfl
      have hnext : nextIt f ⟨n, a :: b :: rest₂, some t⟩ =
          some (descendList f n (b :: rest₂)) := by
        simp [nextIt, hsucc]
      constructor
      · intro hseg
        rw [hremeq] at hseg
        rw [hnext, hds.1 hseg]
      · intro u rest' hseg
        rw [hremeq] at hseg
        obtain ⟨a', l', hdl, hv', hrem'⟩ := hds.2 u rest' hseg
        exact ⟨a', l', by rw [hnext, hdl], hv', hrem'⟩
    · by_cases hsb : s ≤ ftOf f b
      · have hftw := sorted_find_takeWhile (hw.own_sorted a) hsucc hsb
        have hpeel := sorted_filter_peel
          ((hw.own_sorted a).sublist (List.takeWhile_sublist _)) hftw
        have hnext : nextIt f ⟨n, a :: b :: rest₂, some t⟩ =
            some ⟨n, a :: b :: rest₂, some s⟩ := by
          simp only [nextIt, hsucc]
          rw [if_pos hsb]
        constructor
        · intro hseg
          rw [remSt_cons, hpeel] at hseg
          simp at hseg
        · intro u rest' hseg
          rw [remSt_cons, hpeel] at hseg
          simp only [List.cons_append, List.cons.injEq] at hseg
          obtain ⟨hu, hrest'⟩ := hseg
          subst hu
          refine ⟨a, b :: rest₂, hnext, ⟨hct, ?_, ?_⟩, ?_⟩
          · exact List.mem_of_find?_eq_some hsucc
          · intro c hc
            simp only [List.head?_cons, Option.mem_def, Option.some.injEq] at hc
            rw [← hc]
            exact hsb
          · rw [remSt_cons]
            exact hrest'
      · have hfil := sorted_takeWhile_filter_nil_of_gt
          (hw.own_sorted a) hsucc hsb
        have hremeq : remSt f a (b :: rest₂) t = segsFrom f (b :: rest₂) := by
          rw [remSt_cons, hfil]
          rfl
        have hnext : nextIt f ⟨n, a :: b :: rest₂, some t⟩ =
            some (descendList f n (b :: rest₂)) := by
          simp only [nextIt, hsucc]
          rw [if_neg hsb]
        constructor
        · intro hseg
          rw [hremeq] at hseg
          rw [hnext, hds.1 hseg]
        · intro u rest' hseg
          rw [hremeq] at hseg
          obtain ⟨a', l', hdl, hv', hrem'⟩ := hds.2 u rest' hseg
          exact ⟨a', l', by rw [hnext, hdl], hv', hrem'⟩

theorem iterAux_endIt (f : Forest) (n : Nat) :
    ∀ fuel, iterListAux f fuel (endIt n) = [] := by
  intro fuel
  cases fuel with
  | zero => rfl
  | succ k => rfl

theorem iterAux_spec {f : Forest} (hw : WFP f) {n : Nat} :
    ∀ fuel (a : Nat) (rest : List Nat) (t : Instant), ValidSt f n a rest t →
      (remSt f a rest t).length < fuel →
      iterListAux f fuel ⟨n, a :: rest, some t⟩ = t :: remSt f a rest t := by
  intro fuel
  induction fuel with
  | zero =>
    intro a rest t _ h
    omega
  | succ k ih =>
    intro a rest t hv hlen
    have hns := next_spec hw hv
    rcases hrem : remSt f a rest t with _ | ⟨u, rest'⟩
    · have hnext := hns.1 hrem
      show (match nextIt f ⟨n, a :: rest, some t⟩ with
        | some it' => t :: iterListAux f k it'
        | none => [t]) = [t]
      rw [hnext]
      show t :: iterListAux f k (endIt n) = [t]
      rw [iterAux_endIt]
    · obtain ⟨a', l', hnext, hv', hrem'⟩ := hns.2 u rest' hrem
      show (match nextIt f ⟨n, a :: rest, some t⟩ with
        | some it' => t :: iterListAux f k it'
        | none => [t]) = t :: u :: rest'
      rw [hnext]
      show t :: iterListAux f k ⟨n, a' :: l', some u⟩ = t :: u :: rest'
      have hlt : (remSt f a' l' u).length < k := by
        rw [hrem']
        rw [hrem] at hlen
        simp only [List.length_cons] at hlen
        omega
      rw [ih a' l' u hv' hlt, hrem']

theorem boundsTW_length_le (f : Forest) (rest : List Nat) (l : List Instant) :
    (boundsTW f rest l).length ≤ l.length := by
  unfold boundsTW
  cases rest with
  | nil => exact le_refl _
  | cons b r => exact (List.takeWhile_sublist _).length_le

theorem segsFrom_length_le (f : Forest) :
    ∀ l, (segsFrom f l).length ≤
      (l.map (fun a => (ownOf f a).length)).sum := by
  intro l
  induction l with
  | nil => simp [segsFrom]
  | cons a rest ih =>
    show (boundsTW f rest (ownOf f a) ++ segsFrom f rest).length ≤ _
    rw [List.length_append]
    simp only [List.map_cons, List.sum_cons]
    have h1 := boundsTW_length_le f rest (ownOf f a)
    omega

theorem sum_map_filter_hasNode (f : Forest) :
    ∀ l : List Nat,
      (l.map (fun a => (ownOf f a).length)).sum =
        ((l.filter (fun a => hasNode f a)).map
          (fun a => (ownOf f a).length)).sum := by
  intro l
  induction l with
  | nil => rfl
  | cons a rest ih =>
    rcases hn : hasNode f a with _ | _
    · have hnone : f.lookup a = none := by
        unfold hasNode at hn
        exact Option.not_isSome_iff_eq_none.mp (by simp [hn])
      rw [List.filter_cons_of_neg (by simp [hn])]
      simp only [List.map_cons, List.sum_cons, ownOf_of_none hnone,
        List.length_nil, Nat.zero_add]
      exact ih
    · rw [List.filter_cons_of_pos (by simp [hn])]
      simp only [List.map_cons, List.sum_cons]
      rw [ih]

theorem sum_ownLen_le (f : Forest) :
    ∀ l : List Nat, List.Pairwise (· < ·) l →
      (l.map (fun a => (ownOf f a).length)).sum ≤ totalOwn f := by
  intro l hl
  rw [sum_map_filter_hasNode]
  have hnd : (l.filter (fun a => hasNode f a)).Nodup := by
    have : l.Nodup := List.Pairwise.imp (fun h => ne_of_lt h) hl
    exact this.filter _
  have hsub : l.filter (fun a => hasNode f a) ⊆ f.nodes.map Prod.fst := by
    intro a ha
    have hhn : hasNode f a = true := (List.mem_filter.mp ha).2
    unfold hasNode at hhn
    rcases hs : f.lookup a with _ | nd
    · rw [hs] at hhn
      simp at hhn
    · exact List.mem_map.mpr ⟨(a, nd), lookup_mem hs, rfl⟩
  obtain ⟨l₂, hperm, hsl⟩ := hnd.subperm hsub
  have h1 : ((l.filter (fun a => hasNode f a)).map
      (fun a => (ownOf f a).length)).sum =
      (l₂.map (fun a => (ownOf f a).length)).sum :=
    ((hperm.map (fun a => (ownOf f a).length)).sum_eq).symm
  have h2 : (l₂.map (fun a => (ownOf f a).length)).sum ≤
      ((f.nodes.map Prod.fst).map (fun a => (ownOf f a).length)).sum :=
    (hsl.map (fun a => (ownOf f a).length)).sum_le_sum
      (fun a _ => Nat.zero_le a)
  have h3 : ((f.nodes.map Prod.fst).map
      (fun a => (ownOf f a).length)).sum = totalOwn f := by
    rw [List.map_map]
    rfl
  omega

/-- Master correspondence: running the chain-based iterator of a trajectory
from `Begin()` until `End()` yields exactly the effective timeline. -/
theorem iterTimes_eq_eff {f : Forest} (hw : WFP f) (n : Nat) :
    iterTimes f n = eff f n := by
  unfold iterTimes beginIt
  have hplt := hw.plt
  have hct : ChainTo f n (pathTo f n) :=
    ⟨pathTo_getLast hplt n, pathTo_chain hplt n⟩
  have hds := descend_spec hw (pathTo f n) hct (pathTo_ne_nil hplt n)
  have hsegs : segsFrom f (pathTo f n) = eff f n := (eff_eq_segs hw n).symm
  rcases he : eff f n with _ | ⟨u, rest'⟩
  · rw [hds.1 (by rw [hsegs, he])]
    rw [iterAux_endIt]
  · obtain ⟨a', l', hdl, hv', hrem'⟩ := hds.2 u rest' (by rw [hsegs, he])
    rw [hdl]
    have hlen : (remSt f a' l' u).length < totalOwn f + 1 := by
      rw [hrem']
      have h1 : (eff f n).length ≤
          ((pathTo f n).map (fun a => (ownOf f a).length)).sum := by
        rw [eff_eq_segs hw n]
        exact segsFrom_length_le f _
      have h2 := sum_ownLen_le f (pathTo f n) (pathTo_sorted hplt n)
      rw [he] at h1
      simp only [List.length_cons] at h1
      omega
    rw [iterAux_spec hw (totalOwn f + 1) a' l' u hv' hlen, hrem']

/-!  Frame lemmas for updating a single node record. -/

theorem mem_setNode {f : Forest} {n : Nat} {nd : Node} {pr : Nat × Node} :
    pr ∈ (setNode f n nd).nodes ↔
      ∃ pr₀ ∈ f.nodes, pr = (if pr₀.1 = n then (n, nd) else pr₀) := by
  rw [setNode_nodes]
  rw [List.mem_map]
  constructor
  · rintro ⟨pr₀, h1, h2⟩
    exact ⟨pr₀, h1, h2.symm⟩
  · rintro ⟨pr₀, h1, h2⟩
    exact ⟨pr₀, h1, h2.symm⟩

theorem ownOf_setNode_self {f : Forest} {n : Nat} {nd₀ : Node} (nd : Node)
    (h : f.lookup n = some nd₀) : ownOf (setNode f n nd) n = nd.own :=
  ownOf_eq (lookup_setNode_self nd h)

theorem ownOf_setNode_ne {f : Forest} {n k : Nat} (nd : Node) (h : k ≠ n) :
    ownOf (setNode f n nd) k = ownOf f k := by
  unfold ownOf
  rw [lookup_setNode_ne nd h]

theorem parentOf_setNode_self {f : Forest} {n : Nat} {nd₀ : Node} (nd : Node)
    (h : f.lookup n = some nd₀) :
    parentOf (setNode f n nd) n = nd.parent :=
  parentOf_eq (lookup_setNode_self nd h)

theorem parentOf_setNode_ne {f : Forest} {n k : Nat} (nd : Node) (h : k ≠ n) :
    parentOf (setNode f n nd) k = parentOf f k := by
  unfold parentOf
  rw [lookup_setNode_ne nd h]

theorem isSome_setNode {f : Forest} {n : Nat} {nd₀ : Node} (nd : Node)
    (hn : f.lookup n = some nd₀) (k : Nat) :
    ((setNode f n nd).lookup k).isSome = (f.lookup k).isSome := by
  by_cases hk : k = n
  · subst hk
    rw [lookup_setNode_self nd hn, hn]
    rfl
  · rw [lookup_setNode_ne nd hk]

/-- Replacing the record of one node preserves the invariant provided the new
record is itself well formed in the updated forest, and every existing child
of the updated node still finds its fork time in the new record. -/
theorem wfp_setNode {f : Forest} (hw : WFP f) {n : Nat} {nd₀ nd : Node}
    (hn : f.lookup n = some nd₀)
    (hsorted : List.Pairwise (· < ·) nd.own)
    (hpok : ∀ p ft, nd.parent = some (p, ft) →
      p < n ∧ (f.lookup p).isSome = true ∧
      (ft ∈ ownOf f p ∨ (parentOf f p).map Prod.snd = some ft) ∧
      ∀ x ∈ nd.own, ft < x)
    (hrefs : ∀ k knd, ∀ ftk : Instant, f.lookup k = some knd →
      knd.parent = some (n, ftk) →
      ftk ∈ nd.own ∨ nd.parent.map Prod.snd = some ftk) :
    WFP (setNode f n nd) := by
  have hkeys := keys_setNode f n nd
  refine ⟨?_, ?_, ?_, ?_⟩
  · rw [hkeys]
    exact hw.nodup
  · intro pr hpr
    obtain ⟨pr₀, h0, hpr⟩ := mem_setNode.mp hpr
    have h1 := hw.ltNext pr₀ h0
    by_cases he : pr₀.1 = n
    · rw [hpr, if_pos he]
      show n < (setNode f n nd).nextId
      rw [← he]
      exact h1
    · rw [hpr, if_neg he]
      exact h1
  · intro pr hpr
    obtain ⟨pr₀, h0, hpr⟩ := mem_setNode.mp hpr
    by_cases he : pr₀.1 = n
    · rw [hpr, if_pos he]
      exact hsorted
    · rw [hpr, if_neg he]
      exact hw.sorted pr₀ h0
  · intro pr hpr p ft hpar
    obtain ⟨pr₀, h0, hpr⟩ := mem_setNode.mp hpr
    by_cases he : pr₀.1 = n
    · rw [hpr, if_pos he] at hpar ⊢
      have h2 := hpok p ft hpar
      have hpn : p ≠ n := by omega
      refine ⟨h2.1, ?_, ?_, h2.2.2.2⟩
      · rw [isSome_setNode nd hn]
        exact h2.2.1
      · rw [ownOf_setNode_ne nd hpn, parentOf_setNode_ne nd hpn]
        exact h2.2.2.1
    · rw [hpr, if_neg he] at hpar ⊢
      have hlk : f.lookup pr₀.1 = some pr₀.2 := by
        apply mem_lookup_list hw.nodup
        show (pr₀.1, pr₀.2) ∈ f.nodes
        simpa using h0
      have h2 := hw.pOk pr₀ h0 p ft hpar
      refine ⟨h2.1, ?_, ?_, h2.2.2.2⟩
      · rw [isSome_setNode nd hn]
        exact h2.2.1
      · by_cases hpn : p = n
        · subst hpn
          rw [ownOf_setNode_self nd hn, parentOf_setNode_self nd hn]
          exact hrefs pr₀.1 pr₀.2 ft hlk hpar
        · rw [ownOf_setNode_ne nd hpn, parentOf_setNode_ne nd hpn]
          exact h2.2.2.1

theorem pushBack_none {f : Forest} {n : Nat} {t : Instant}
    (h : f.lookup n = none) : pushBack f n t = f := by
  unfold pushBack
  rw [h]

theorem pushBack_some {f : Forest} {n : Nat} {t : Instant} {nd : Node}
    (h : f.lookup n = some nd) :
    pushBack f n t = setNode f n ⟨nd.own ++ [t], nd.parent⟩ := by
  unfold pushBack
  rw [h]

theorem own_subset_eff {f : Forest} (hplt : PLt f) (n : Nat) :
    ∀ x ∈ ownOf f n, x ∈ eff f n := by
  intro x hx
  rcases hp : parentOf f n with _ | ⟨p, ft⟩
  · rw [eff_root hp]
    exact hx
  · rw [eff_fork hplt hp]
    exact List.mem_append_right _ hx

theorem takeWhile_append_last_neg {p : Instant → Bool} {a : Instant} :
    ∀ l : List Instant, p a = false →
      (l ++ [a]).takeWhile p = l.takeWhile p := by
  intro l ha
  induction l with
  | nil =>
    simp only [List.nil_append, List.takeWhile_nil]
    rw [List.takeWhile_cons_of_neg (by simp [ha])]
  | cons x l ih =>
    by_cases hx : p x
    · rw [List.cons_append, List.takeWhile_cons_of_pos hx,
        List.takeWhile_cons_of_pos hx, ih]
    · rw [List.cons_append, List.takeWhile_cons_of_neg hx,
        List.takeWhile_cons_of_neg hx]

theorem eff_pushBack {f : Forest} (hw : WFP f) {n : Nat} {nd : Node}
    {t : Instant} (hn : f.lookup n = some nd)
    (hmax : ∀ x ∈ eff f n, x < t) :
    ∀ k, eff (pushBack f n t) k =
      if k = n then eff f n ++ [t] else eff f k := by
  have hpb := pushBack_some (t := t) hn
  have hpar : ∀ k, parentOf (pushBack f n t) k = parentOf f k := by
    intro k
    rw [hpb]
    by_cases hk : k = n
    · subst hk
      rw [parentOf_setNode_self _ hn, parentOf_eq hn]
    · exact parentOf_setNode_ne _ hk
  have hplt' : PLt (pushBack f n t) := by
    intro k p ft hp
    rw [hpar] at hp
    exact hw.plt k p ft hp
  have hown : ∀ k, ownOf (pushBack f n t) k =
      if k = n then nd.own ++ [t] else ownOf f k := by
    intro k
    rw [hpb]
    by_cases hk : k = n
    · subst hk
      rw [if_pos rfl, ownOf_setNode_self _ hn]
    · rw [if_neg hk, ownOf_setNode_ne _ hk]
  intro k
  induction k using Nat.strong_induction_on with
  | _ k ih =>
    have hparE : parentOf (pushBack f n t) k = parentOf f k := hpar k
    rcases hp : parentOf f k with _ | ⟨p, ft⟩
    · have h1 : eff (pushBack f n t) k = ownOf (pushBack f n t) k :=
        eff_root (by rw [hparE]; exact hp)
      have h2 : eff f k = ownOf f k := eff_root hp
      by_cases hk : k = n
      · have h3 : ownOf f k = nd.own := by
          rw [hk]
          exact ownOf_eq hn
        rw [if_pos hk, h1, hown, if_pos hk, ← hk, h2, h3]
      · rw [if_neg hk, h1, hown, if_neg hk, h2]
    · have hpk : p < k := hw.plt k p ft hp
      have h1 : eff (pushBack f n t) k =
          (eff (pushBack f n t) p).takeWhile (fun x => decide (x ≤ ft)) ++
            ownOf (pushBack f n t) k :=
        eff_fork hplt' (by rw [hparE]; exact hp)
      have h2 : eff f k =
          (eff f p).takeWhile (fun x => decide (x ≤ ft)) ++ ownOf f k :=
        eff_fork hw.plt hp
      rw [h1, ih p hpk, hown]
      by_cases hk : k = n
      · have hpn : p ≠ n := by
          rw [← hk]
          exact Nat.ne_of_lt hpk
        have h3 : ownOf f k = nd.own := by
          rw [hk]
          exact ownOf_eq hn
        rw [if_pos hk, if_neg hpn, if_pos hk, ← hk, h2, h3, List.append_assoc]
      · rw [if_neg hk, if_neg hk, h2]
        by_cases hpn : p = n
        · have hft : ft ∈ eff f n := by
            rw [← hpn]
            exact ft_in_eff hw p k ft hp
          have hlt : ft < t := hmax ft hft
          have hneg : decide (t ≤ ft) = false := by
            simp only [decide_eq_false_iff_not]
            exact not_le.mpr hlt
          rw [if_pos hpn, hpn, takeWhile_append_last_neg (eff f n) hneg]
        · rw [if_neg hpn]

theorem ft_self_in_eff {f : Forest} (hw : WFP f) {n p : Nat} {ft : Instant}
    (hp : parentOf f n = some (p, ft)) : ft ∈ eff f n := by
  rw [eff_fork hw.plt hp]
  exact List.mem_append_left _
    (mem_takeWhile_le_self (eff_sorted hw p) (ft_in_eff hw p n ft hp))

/-- C1: for every fork with parent `p` and fork time `ft`, iterating from
`Begin()` to `End()` yields every sample of the parent's iterated sequence
with time at most `ft`, then every sample of the fork's own timeline, in a
single strictly increasing sequence; for a root the iteration yields exactly
its own timeline. -/
theorem forkIterationDecomposition (f : Forest) (n : Nat) (nd : Node)
    (hw : WF f) (hn : f.lookup n = some nd) :
    List.Pairwise (· < ·) (iterTimes f n) ∧
    (∀ p, ∀ ft : Instant, nd.parent = some (p, ft) →
      iterTimes f n =
        (iterTimes f p).takeWhile (fun x => decide (x ≤ ft)) ++ nd.own) ∧
    (nd.parent = none → iterTimes f n = nd.own) := by
  have hwp := (WF_iff f).mp hw
  refine ⟨?_, ?_, ?_⟩
  · rw [iterTimes_eq_eff hwp]
    exact eff_sorted hwp n
  · intro p ft hp
    have hpar : parentOf f n = some (p, ft) := by
      rw [parentOf_eq hn]
      exact hp
    rw [iterTimes_eq_eff hwp n, iterTimes_eq_eff hwp p,
      eff_fork hwp.plt hpar, ownOf_eq hn]
  · intro hp
    have hpar : parentOf f n = none := by
      rw [parentOf_eq hn]
      exact hp
    rw [iterTimes_eq_eff hwp n, eff_root hpar, ownOf_eq hn]

/-- Example forest for the C1 witness: a root with samples at 7, 17, 27 and
a fork at 17 with one own sample at 37 (test `ForkSuccess`). -/
def exC1 : Forest :=
  ⟨[(0, ⟨[7, 17, 27], none⟩), (1, ⟨[37], some (0, 17)⟩)], 2⟩

theorem forkIterationDecomposition_witness :
    WF exC1 ∧
      iterTimes exC1 1 =
        (iterTimes exC1 0).takeWhile (fun x => decide (x ≤ 17)) ++ [37] :=
  ⟨by decide,
    (forkIterationDecomposition exC1 1 ⟨[37], some (0, 17)⟩ (by decide)
      (by decide)).2.1 0 17 rfl⟩

/-- C2: appending a sample beyond every sample of a node's effective
timeline preserves the invariant (no descendant fork position is
invalidated) and leaves the iterated sequence of every other node, in
particular of every existing fork, unchanged. -/
theorem pushBackPreservesForkIteration (f : Forest) (n : Nat) (t : Instant)
    (hw : WF f) (hmax : ∀ x ∈ eff f n, x < t) :
    WF (pushBack f n t) ∧
    ∀ k, k ≠ n → iterTimes (pushBack f n t) k = iterTimes f k := by
  have hwp := (WF_iff f).mp hw
  rcases hn : f.lookup n with _ | nd
  · rw [pushBack_none hn]
    exact ⟨hw, fun k _ => rfl⟩
  · have hops : ∀ x ∈ nd.own, x < t := by
      intro x hx
      refine hmax x (own_subset_eff hwp.plt n x ?_)
      rw [ownOf_eq hn]
      exact hx
    have hwp' : WFP (pushBack f n t) := by
      rw [pushBack_some hn]
      refine wfp_setNode hwp hn ?_ ?_ ?_
      · rw [List.pairwise_append]
        refine ⟨hwp.sorted (n, nd) (lookup_mem hn), by simp, ?_⟩
        intro x hx y hy
        simp only [List.mem_singleton] at hy
        rw [hy]
        exact hops x hx
      · intro p ft hpar
        have hp : parentOf f n = some (p, ft) := by
          rw [parentOf_eq hn]
          exact hpar
        refine ⟨hwp.parent_lt hp, hwp.parent_isSome hp, hwp.ft_mem hp, ?_⟩
        intro x hx
        rcases List.mem_append.mp hx with hx | hx
        · refine hwp.own_gt hp x ?_
          rw [ownOf_eq hn]
          exact hx
        · simp only [List.mem_singleton] at hx
          rw [hx]
          exact hmax ft (ft_self_in_eff hwp hp)
      · intro k knd ftk hk hkp
        have h := (hwp.pOk (k, knd) (lookup_mem hk) n ftk hkp).2.2.1
        rcases h with h | h
        · left
          rw [ownOf_eq hn] at h
          exact List.mem_append_left _ h
        · right
          rw [parentOf_eq hn] at h
          exact h
    refine ⟨(WF_iff _).mpr hwp', ?_⟩
    intro k hk
    rw [iterTimes_eq_eff hwp' k, iterTimes_eq_eff hwp k,
      eff_pushBack hwp hn hmax k, if_neg hk]

/-- Example forest for the C2 witness: a root with samples at 7 and 17 and a
fork at 7 (test `IteratorIncrementForkSuccess`); 37 is appended to the
root. -/
def exC2 : Forest :=
  ⟨[(0, ⟨[7, 17], none⟩), (1, ⟨[], some (0, 7)⟩)], 2⟩

theorem pushBackPreservesForkIteration_witness :
    WF exC2 ∧ (∀ x ∈ eff exC2 0, x < 37) ∧
      iterTimes (pushBack exC2 0 37) 1 = iterTimes exC2 1 :=
  ⟨by decide, by decide,
    (pushBackPreservesForkIteration exC2 0 37 (by decide) (by decide)).2 1
      (by decide)⟩

/-!  Claims C4 and C5: lifecycle operations, corrected against the tests. -/

/-- Example forest for C4: a root with samples at 7, 17, 27 and a fork at 17
with one own sample at 37 (test `DetachForkWithCopiedBeginSuccess`, without
the caller's `push_front`). -/
def exC4 : Forest :=
  ⟨[(0, ⟨[7, 17, 27], none⟩), (1, ⟨[37], some (0, 17)⟩)], 2⟩

/-- The detached forest of the C4 counterexample. -/
def exC4d : Forest := setNode exC4 1 ⟨[37], none⟩

/-- C4 counterexample: detaching the fork at fork time 17 does not prepend
17 to the detached timeline; the detached root's timeline is [37] and does
not start at the old fork-point time, contradicting the claim that
`detach_fork_with_copied_begin` itself prepends the fork-point sample. -/
theorem detachDoesNotPrepend :
    detachForkWithCopiedBegin exC4 1 = Except.ok exC4d ∧
    ownOf exC4d 1 = [37] ∧
    ¬ ownOf exC4d 1 = 17 :: ownOf exC4 1 ∧
    ¬ (ownOf exC4d 1).head? = some 17 := by
  refine ⟨by decide, by decide, by decide, by decide⟩

/-- C4 amended: `detach_fork_with_copied_begin` on a non-root removes the
node from its parent and returns it as an owned root (`is_root()` becomes
true) with its timeline unchanged; the caller is expected to have already
prepended a copy of the fork-point sample.  On a root it fails with the
`!is_root()` (IsRoot) check. -/
theorem detachForkSpec (f : Forest) (c : Nat) (nd : Node)
    (hn : f.lookup c = some nd) :
    (nd.parent = none → detachForkWithCopiedBegin f c = .error .IsRoot) ∧
    (∀ pft : Nat × Instant, nd.parent = some pft →
      detachForkWithCopiedBegin f c = .ok (setNode f c ⟨nd.own, none⟩) ∧
      (setNode f c ⟨nd.own, none⟩).lookup c = some ⟨nd.own, none⟩ ∧
      isRoot (setNode f c ⟨nd.own, none⟩) c = true ∧
      ∀ k, k ≠ c → (setNode f c ⟨nd.own, none⟩).lookup k = f.lookup k) := by
  constructor
  · intro hp
    simp only [detachForkWithCopiedBegin, hn, hp]
  · intro pft hp
    refine ⟨?_, lookup_setNode_self _ hn, ?_, ?_⟩
    · simp only [detachForkWithCopiedBegin, hn, hp]
    · unfold isRoot
      rw [parentOf_setNode_self _ hn]
      rfl
    · intro k hk
      exact lookup_setNode_ne _ hk

theorem detachForkSpec_witness :
    detachForkWithCopiedBegin exC4 1 = .ok (setNode exC4 1 ⟨[37], none⟩) ∧
      isRoot (setNode exC4 1 ⟨[37], none⟩) 1 = true :=
  ⟨((detachForkSpec exC4 1 ⟨[37], some (0, 17)⟩ (by decide)).2 (0, 17) rfl).1,
    ((detachForkSpec exC4 1 ⟨[37], some (0, 17)⟩ (by decide)).2 (0, 17) rfl).2.2.1⟩

/-- Example forest for C5: a root with samples at 7, 17, 27 and an empty
fork at the last sample 27 (test `ForkAtLast`). -/
def exC5 : Forest :=
  ⟨[(0, ⟨[7, 17, 27], none⟩), (1, ⟨[], some (0, 27)⟩)], 2⟩

/-- C5 counterexample: `NewFork` with the end cursor does not fail with
`EmptyFork` on every node: on the non-root fork it succeeds (creating a fork
at the node's own fork point, as test `ForkAtLast` exercises), and on the
root it fails with the `!is_root()` (RootFork) check instead. -/
theorem newForkAtEndCounterexample :
    newFork exC5 1 none =
      .ok (⟨exC5.nodes ++ [(2, ⟨[], some (1, 27)⟩)], 3⟩, 2) ∧
    newFork exC5 0 none = .error .RootFork := by
  refine ⟨by decide, by decide⟩

/-- C5 amended: `NewFork` with the end cursor fails — with the `!is_root()`
(RootFork) check — exactly on a root; on a non-root it succeeds and creates
a fresh empty child whose fork time is the node's own fork time. -/
theorem newForkAtEndSpec (f : Forest) (n : Nat) (nd : Node)
    (hw : WF f) (hn : f.lookup n = some nd) :
    (nd.parent = none → newFork f n none = .error .RootFork) ∧
    (∀ p, ∀ ft : Instant, nd.parent = some (p, ft) →
      newFork f n none =
        .ok (⟨f.nodes ++ [(f.nextId, ⟨[], some (n, ft)⟩)], f.nextId + 1⟩,
          f.nextId) ∧
      (⟨f.nodes ++ [(f.nextId, ⟨[], some (n, ft)⟩)], f.nextId + 1⟩ :
          Forest).lookup f.nextId = some ⟨[], some (n, ft)⟩) := by
  have hwp := (WF_iff f).mp hw
  constructor
  · intro hp
    simp only [newFork, hn, hp]
  · intro p ft hp
    constructor
    · simp only [newFork, hn, hp]
    · show List.lookup f.nextId (f.nodes ++ [(f.nextId, ⟨[], some (n, ft)⟩)]) =
        some ⟨[], some (n, ft)⟩
      rw [List.lookup_append]
      have hnone : List.lookup f.nextId f.nodes = none := by
        apply lookup_none_of_not_mem_keys
        intro hmem
        obtain ⟨pr, hpr, hfst⟩ := List.mem_map.mp hmem
        have := hwp.ltNext pr hpr
        omega
      rw [hnone]
      simp [List.lookup_cons]

theorem newForkAtEndSpec_witness :
    newFork exC5 1 none =
      .ok (⟨exC5.nodes ++ [(2, ⟨[], some (1, 27)⟩)], 3⟩, 2) :=
  ((newForkAtEndSpec exC5 1 ⟨[], some (0, 27)⟩ (by decide) (by decide)).2
    0 27 rfl).1

/-!  Claim C7: `DeleteFork`. -/

/-- C7: `DeleteFork`, invoked on a parent with one of its directly owned
children, removes that child together with its subtree and leaves every
other node — the parent's timeline and its other forks — unchanged; it fails
with the `not a child` check when the node is not a directly owned child
(for example a grandchild) and with the `!is_root()` (IsRoot) check on a
root.  (Nulling the caller's C++ pointer is pointer hygiene outside the
model.) -/
theorem deleteForkSpec (f : Forest) (p c : Nat) (nd : Node)
    (hw : WF f) (hn : f.lookup c = some nd) :
    (nd.parent = none → deleteFork f p c = .error .IsRoot) ∧
    (∀ pp, ∀ ft : Instant, nd.parent = some (pp, ft) → pp ≠ p →
      deleteFork f p c = .error .NotAChild) ∧
    (∀ ft : Instant, nd.parent = some (p, ft) →
      deleteFork f p c =
        .ok ⟨f.nodes.filter (fun pr => !isDescendant f c pr.1), f.nextId⟩ ∧
      (∀ k, isDescendant f c k = true →
        (⟨f.nodes.filter (fun pr => !isDescendant f c pr.1), f.nextId⟩ :
          Forest).lookup k = none) ∧
      (∀ k, isDescendant f c k = false →
        (⟨f.nodes.filter (fun pr => !isDescendant f c pr.1), f.nextId⟩ :
          Forest).lookup k = f.lookup k)) := by
  have hwp := (WF_iff f).mp hw
  refine ⟨?_, ?_, ?_⟩
  · intro hp
    simp only [deleteFork, hn, hp]
  · intro pp ft hp hne
    simp only [deleteFork, hn, hp]
    rw [if_neg hne]
  · intro ft hp
    refine ⟨?_, ?_, ?_⟩
    · simp only [deleteFork, hn, hp]
      simp
    · intro k hdesc
      show List.lookup k (f.nodes.filter (fun pr => !isDescendant f c pr.1)) =
        none
      rw [lookup_filter _ hwp.nodup]
      rcases hl : List.lookup k f.nodes with _ | knd
      · rfl
      · simp [hdesc]
    · intro k hdesc
      show List.lookup k (f.nodes.filter (fun pr => !isDescendant f c pr.1)) =
        List.lookup k f.nodes
      rw [lookup_filter _ hwp.nodup]
      rcases hl : List.lookup k f.nodes with _ | knd
      · rfl
      · simp [hdesc]

/-- Example forest for the C7 witness (test `DeleteForkSuccess`): a root
with samples at 7, 17, 27 and two forks at 17; the second fork (id 2) is
deleted. -/
def exC7 : Forest :=
  ⟨[(0, ⟨[7, 17, 27], none⟩), (1, ⟨[37], some (0, 17)⟩),
    (2, ⟨[], some (0, 17)⟩)], 3⟩

theorem deleteForkSpec_witness :
    deleteFork exC7 0 2 =
      .ok ⟨exC7.nodes.filter (fun pr => !isDescendant exC7 2 pr.1),
        exC7.nextId⟩ :=
  ((deleteForkSpec exC7 0 2 ⟨[], some (0, 17)⟩ (by decide) (by decide)).2.2
    17 rfl).1

/-!  Claim C9: iterator equality. -/

/-- C9: two iterators are equal exactly when they denote the same trajectory
and the same timeline position (the same chain of nodes and the same cursor
into the front node's own timeline); in particular the `End()` iterators of
two distinct forks are distinct — as in test `IteratorEndEquality`, where
the two forks of the same root are the nodes 1 and 2. -/
theorem iteratorEqualitySpec :
    (∀ it1 it2 : Iter, it1 = it2 ↔
      it1.target = it2.target ∧ it1.ancestry = it2.ancestry ∧
        it1.pos = it2.pos) ∧
    (∀ n1 n2 : Nat, n1 ≠ n2 → endIt n1 ≠ endIt n2) ∧
    endIt 1 ≠ endIt 2 := by
  refine ⟨?_, ?_, by decide⟩
  · intro it1 it2
    constructor
    · intro h
      rw [h]
      exact ⟨rfl, rfl, rfl⟩
    · intro ⟨h1, h2, h3⟩
      cases it1
      cases it2
      simp only at h1 h2 h3
      rw [h1, h2, h3]
  · intro n1 n2 hne hc
    exact hne (congrArg Iter.target hc)

theorem iteratorEqualitySpec_witness : endIt 3 ≠ endIt 4 :=
  iteratorEqualitySpec.2.1 3 4 (by decide)

/-!  Claim C10: lookups on an empty trajectory. -/

/-- C10: for a root with an empty timeline, `Begin()` equals `End()` and
both `Find(t)` and `LowerBound(t)` return `End()` for every instant; no
lookup on an empty trajectory dereferences a sample. -/
theorem emptyTrajectoryLookups (f : Forest) (n : Nat)
    (hn : f.lookup n = some ⟨[], none⟩) :
    beginIt f n = endIt n ∧ (∀ t : Instant, findIt f n t = endIt n) ∧
      (∀ t : Instant, lowerBoundIt f n t = endIt n) := by
  have hpar : parentOf f n = none := by
    rw [parentOf_eq hn]
  have hown : ownOf f n = [] := by
    rw [ownOf_eq hn]
  have heff : eff f n = [] := by
    rw [eff_root hpar, hown]
  refine ⟨?_, ?_, ?_⟩
  · unfold beginIt
    rw [pathTo_root hpar]
    simp [descendList, hown]
  · intro t
    unfold findIt
    rw [heff]
    simp
  · intro t
    unfold lowerBoundIt
    rw [heff]
    simp

/-- Example forest for the C10 witness: one empty root. -/
def exC10 : Forest := ⟨[(0, ⟨[], none⟩)], 1⟩

theorem emptyTrajectoryLookups_witness :
    beginIt exC10 0 = endIt 0 ∧ findIt exC10 0 7 = endIt 0 :=
  ⟨(emptyTrajectoryLookups exC10 0 (by decide)).1,
    (emptyTrajectoryLookups exC10 0 (by decide)).2.1 7⟩

/-!  Claim C8: iterator decrement across fork boundaries. -/

theorem ascendChain_ok {f : Forest} (hw : WFP f) :
    ∀ p, ∀ t : Instant,
      (t ∈ ownOf f p ∨ (parentOf f p).map Prod.snd = some t) →
      ∃ ch c, ascendChain f t p = some ch ∧ ch.head? = some c ∧
        t ∈ ownOf f c := by
  intro p
  induction p using Nat.strong_induction_on with
  | _ p ih =>
    intro t hdis
    by_cases hmem : t ∈ ownOf f p
    · exact ⟨[p], p, ascendChain_own hmem, rfl, hmem⟩
    · rcases hdis with h | h
      · exact absurd h hmem
      · rcases hq : parentOf f p with _ | ⟨q, ftp⟩
        · rw [hq] at h
          simp at h
        · rw [hq] at h
          simp only [Option.map_some', Option.some.injEq] at h
          have hq' : parentOf f p = some (q, t) := by
            rw [hq, h]
          obtain ⟨ch, c, hch, hhd, hc⟩ :=
            ih q (hw.plt p q t hq') t (hw.ft_mem hq')
          obtain ⟨ch', hch'⟩ := head?_ex hhd
          refine ⟨ch ++ [p], c, ?_, ?_, hc⟩
          · rw [ascendChain_up hw.plt hmem hq', hch]
            rfl
          · rw [hch']
            rfl

/-- Example forest for C8 (test `IteratorDecrementMultipleForksSuccess`):
root 0 with samples at 7 and 17; forks 1, 2, 3 chained at fork time 17; one
sample at 27 appended to fork 2 after fork 3 was created. -/
def exC8 : Forest :=
  ⟨[(0, ⟨[7, 17], none⟩), (1, ⟨[], some (0, 17)⟩),
    (2, ⟨[27], some (1, 17)⟩), (3, ⟨[], some (2, 17)⟩)], 4⟩

/-- C8: decrementing an iterator positioned at the first sample of a fork's
own timeline ascends into the ancestor owning the fork-point sample and
continues backward from there; in particular, on the concrete forest of test
`IteratorDecrementMultipleForksSuccess`, decrementing from fork 3's `End()`
yields 17, decrementing again yields 7, the iterator then equals fork 3's
`Begin()`, and iterating fork 3 never visits the sample at 27. -/
theorem iteratorDecrementDescends :
    (∀ (f : Forest) (tgt a p : Nat) (l : List Nat) (t ft : Instant)
      (rest : List Instant),
      WF f → ownOf f a = t :: rest → parentOf f a = some (p, ft) →
      ∃ ch c, ascendChain f ft p = some ch ∧ ch.head? = some c ∧
        ft ∈ ownOf f c ∧
        prevIt f ⟨tgt, a :: l, some t⟩ = some ⟨tgt, ch ++ a :: l, some ft⟩) ∧
    (prevIt exC8 (endIt 3) = some ⟨3, [0, 1, 2, 3], some 17⟩ ∧
     prevIt exC8 ⟨3, [0, 1, 2, 3], some 17⟩ = some ⟨3, [0, 1, 2, 3], some 7⟩ ∧
     beginIt exC8 3 = ⟨3, [0, 1, 2, 3], some 7⟩ ∧
     iterTimes exC8 3 = [7, 17] ∧ iterTimes exC8 2 = [7, 17, 27]) := by
  constructor
  · intro f tgt a p l t ft rest hw hown hpar
    have hwp := (WF_iff f).mp hw
    obtain ⟨ch, c, hch, hhd, hc⟩ := ascendChain_ok hwp p ft (hwp.ft_mem hpar)
    refine ⟨ch, c, hch, hhd, hc, ?_⟩
    have hpred : predOwn (ownOf f a) t = none := by
      unfold predOwn
      rw [hown, List.takeWhile_cons_of_neg (by simp)]
      rfl
    simp only [prevIt, hpred, hpar, hch]
  · refine ⟨by decide, by decide, by decide, by decide, by decide⟩

theorem iteratorDecrementDescends_witness :
    ∃ ch c, ascendChain exC8 17 1 = some ch ∧ ch.head? = some c ∧
      17 ∈ ownOf exC8 c ∧
      prevIt exC8 ⟨3, [2, 3], some 27⟩ = some ⟨3, ch ++ [2, 3], some 17⟩ :=
  iteratorDecrementDescends.1 exC8 3 2 1 [3] 27 17 [] (by decide) (by decide)
    (by decide)

/-!  Claim C6: `DeleteAllForksAfter`. -/

theorem isDescendant_le {f : Forest} (hplt : PLt f) (a : Nat) :
    ∀ k, isDescendant f a k = true → a ≤ k := by
  intro k
  induction k using Nat.strong_induction_on with
  | _ k ih =>
    intro hd
    by_cases hk : k = a
    · omega
    · rcases hp : parentOf f k with _ | ⟨p, ft⟩
      · rw [isDescendant_root hk hp] at hd
        exact absurd hd (by simp)
      · rw [isDescendant_step hplt hk hp] at hd
        have h1 := ih p (hplt k p ft hp) hd
        have h2 := hplt k p ft hp
        omega

theorem prunedAt_iff {f : Forest} {n k : Nat} {t : Instant} :
    prunedAt f n t k = true ↔
      isDescendant f n k = true ∧ k ≠ n ∧
        ∃ pk, ∃ ftk : Instant, parentOf f k = some (pk, ftk) ∧ t < ftk := by
  unfold prunedAt
  rcases hp : parentOf f k with _ | ⟨pk, ftk⟩
  · simp
  · simp only [Option.map_some']
    constructor
    · intro h
      rw [Bool.and_eq_true, Bool.and_eq_true] at h
      refine ⟨h.1.1, by simpa using h.1.2, pk, ftk, rfl, by simpa using h.2⟩
    · rintro ⟨h1, h2, pk', ftk', heq, hlt⟩
      rw [Option.some.injEq, Prod.mk.injEq] at heq
      rw [Bool.and_eq_true, Bool.and_eq_true]
      refine ⟨⟨h1, by simpa using h2⟩, ?_⟩
      rw [← heq.2] at hlt
      simpa using hlt

theorem pruned_closure {f : Forest} (hw : WFP f) {n k p : Nat}
    {t ft : Instant} (hpar : parentOf f k = some (p, ft))
    (hp : prunedAt f n t p = true) : prunedAt f n t k = true := by
  obtain ⟨hdesc, hpn, pp, ftp, hpp, hlt⟩ := prunedAt_iff.mp hp
  have hkn : k ≠ n := by
    intro hkn
    have h1 : n ≤ p := isDescendant_le hw.plt n p hdesc
    have h2 : p < k := hw.plt k p ft hpar
    omega
  refine prunedAt_iff.mpr ⟨?_, hkn, p, ft, hpar, ?_⟩
  · rw [isDescendant_step hw.plt hkn hpar]
    exact hdesc
  · exact lt_of_lt_of_le hlt (hw.ft_mono hpar hpp)

theorem lookup_removeForksAfter {f : Forest} (hw : WFP f) (n : Nat)
    (t : Instant) (k : Nat) :
    (removeForksAfter f n t).lookup k =
      match List.lookup k f.nodes with
      | none => none
      | some nd => if prunedAt f n t k = true then none else some nd := by
  show List.lookup k (f.nodes.filter fun pr => !prunedAt f n t pr.1) = _
  rw [lookup_filter _ hw.nodup]
  rcases hl : List.lookup k f.nodes with _ | knd
  · rfl
  · rcases hpr : prunedAt f n t k with _ | _
    · simp [hpr]
    · simp [hpr]

theorem lookup_remove_pruned {f : Forest} (hw : WFP f) {n k : Nat}
    {t : Instant} (h : prunedAt f n t k = true) :
    (removeForksAfter f n t).lookup k = none := by
  rw [lookup_removeForksAfter hw]
  rcases hl : List.lookup k f.nodes with _ | knd
  · rfl
  · simp [h]

theorem lookup_remove_kept {f : Forest} (hw : WFP f) {n k : Nat}
    {t : Instant} (h : prunedAt f n t k = false) :
    (removeForksAfter f n t).lookup k = f.lookup k := by
  rw [lookup_removeForksAfter hw]
  show _ = List.lookup k f.nodes
  rcases hl : List.lookup k f.nodes with _ | knd
  · rfl
  · simp [h]

theorem wfp_removeForksAfter {f : Forest} (hw : WFP f) (n : Nat)
    (t : Instant) : WFP (removeForksAfter f n t) := by
  have hmemsub : ∀ pr, pr ∈ (removeForksAfter f n t).nodes →
      pr ∈ f.nodes ∧ prunedAt f n t pr.1 = false := by
    intro pr hpr
    have h1 := List.mem_of_mem_filter hpr
    have h2 := List.of_mem_filter hpr
    simp only [Bool.not_eq_true'] at h2
    exact ⟨h1, h2⟩
  refine ⟨?_, ?_, ?_, ?_⟩
  · have hsub : List.Sublist ((removeForksAfter f n t).nodes.map Prod.fst)
        (f.nodes.map Prod.fst) :=
      (List.filter_sublist _).map _
    exact hw.nodup.sublist hsub
  · intro pr hpr
    exact hw.ltNext pr (hmemsub pr hpr).1
  · intro pr hpr
    exact hw.sorted pr (hmemsub pr hpr).1
  · intro pr hpr p ft hpar
    obtain ⟨hmem, hkept⟩ := hmemsub pr hpr
    have h := hw.pOk pr hmem p ft hpar
    have hlkpr : f.lookup pr.1 = some pr.2 := by
      apply mem_lookup_list hw.nodup
      show (pr.1, pr.2) ∈ f.nodes
      simpa using hmem
    have hparpr : parentOf f pr.1 = some (p, ft) := by
      rw [parentOf_eq hlkpr]
      exact hpar
    have hkeptp : prunedAt f n t p = false := by
      rcases hcp : prunedAt f n t p with _ | _
      · rfl
      · rw [pruned_closure hw hparpr hcp] at hkept
        exact absurd hkept (by simp)
    have hlkp := lookup_remove_kept hw hkeptp
    refine ⟨h.1, ?_, ?_, h.2.2.2⟩
    · rw [hlkp]
      exact h.2.1
    · have hop : ownOf (removeForksAfter f n t) p = ownOf f p := by
        unfold ownOf
        rw [hlkp]
      have hpp : parentOf (removeForksAfter f n t) p = parentOf f p := by
        unfold parentOf
        rw [hlkp]
      rw [hop, hpp]
      exact h.2.2.1

theorem eff_removeForksAfter {f : Forest} (hw : WFP f) (n : Nat)
    (t : Instant) :
    ∀ k, prunedAt f n t k = false →
      eff (removeForksAfter f n t) k = eff f k := by
  have hplt' : PLt (removeForksAfter f n t) := (wfp_removeForksAfter hw n t).plt
  intro k
  induction k using Nat.strong_induction_on with
  | _ k ih =>
    intro hkept
    have hlk := lookup_remove_kept hw hkept
    have hparE : parentOf (removeForksAfter f n t) k = parentOf f k := by
      unfold parentOf
      rw [hlk]
    have hownE : ownOf (removeForksAfter f n t) k = ownOf f k := by
      unfold ownOf
      rw [hlk]
    rcases hp : parentOf f k with _ | ⟨p, ft⟩
    · rw [eff_root (by rw [hparE]; exact hp), eff_root hp, hownE]
    · have hkeptp : prunedAt f n t p = false := by
        rcases hcp : prunedAt f n t p with _ | _
        · rfl
        · rw [pruned_closure hw hp hcp] at hkept
          exact absurd hkept (by simp)
      rw [eff_fork hplt' (by rw [hparE]; exact hp), eff_fork hw.plt hp,
        ih p (hw.plt k p ft hp) hkeptp, hownE]

/-- C6: for a valid instant — at or after the node's own fork time, or at or
after the first sample for a root — `DeleteAllForksAfter(t)` removes exactly
the strict descendant forks whose fork time is strictly after `t`: their
records disappear, every other node keeps its record (its timeline, its
parent and fork time) and its iterated sequence, and the invariant is
preserved; if `t` precedes the node's fork time it fails with the
`before the fork time` (BeforeForkTime) check. -/
theorem deleteAllForksAfterSpec (f : Forest) (n : Nat) (t : Instant)
    (nd : Node) (hw : WF f) (hn : f.lookup n = some nd) :
    (∀ p, ∀ ft : Instant, nd.parent = some (p, ft) → t < ft →
      deleteAllForksAfter f n t = .error .BeforeForkTime) ∧
    ((match nd.parent with
      | some (_, ft) => ft ≤ t
      | none => ∀ h ∈ nd.own.head?, h ≤ t) →
      deleteAllForksAfter f n t = .ok (removeForksAfter f n t) ∧
      WF (removeForksAfter f n t) ∧
      (∀ k, prunedAt f n t k = true →
        (removeForksAfter f n t).lookup k = none) ∧
      (∀ k, prunedAt f n t k = false →
        (removeForksAfter f n t).lookup k = f.lookup k ∧
        iterTimes (removeForksAfter f n t) k = iterTimes f k)) := by
  have hwp := (WF_iff f).mp hw
  constructor
  · intro p ft hp hlt
    simp only [deleteAllForksAfter, hn, hp]
    rw [if_pos hlt]
  · intro hcond
    have hok : deleteAllForksAfter f n t = .ok (removeForksAfter f n t) := by
      rcases hp : nd.parent with _ | ⟨p, ft⟩
      · rw [hp] at hcond
        simp only [deleteAllForksAfter, hn, hp]
        rcases hh : nd.own.head? with _ | h
        · rfl
        · rw [hh] at hcond
          have hht := hcond h (by simp)
          show (if t < h then Except.error Err.BeforeForkTime
            else Except.ok (removeForksAfter f n t)) = _
          rw [if_neg (not_lt.mpr hht)]
      · rw [hp] at hcond
        simp only [deleteAllForksAfter, hn, hp]
        rw [if_neg (not_lt.mpr hcond)]
    refine ⟨hok, (WF_iff _).mpr (wfp_removeForksAfter hwp n t), ?_, ?_⟩
    · intro k hk
      exact lookup_remove_pruned hwp hk
    · intro k hk
      refine ⟨lookup_remove_kept hwp hk, ?_⟩
      rw [iterTimes_eq_eff (wfp_removeForksAfter hwp n t) k,
        iterTimes_eq_eff hwp k, eff_removeForksAfter hwp n t k hk]

/-- Example forest for the C6 witness (test `DeleteAllForksAfterSuccess`): a
root with samples at 7, 17, 27 and a fork at 17 with one own sample at 37;
`DeleteAllForksAfter(7)` on the root destroys the fork at 17. -/
def exC6 : Forest :=
  ⟨[(0, ⟨[7, 17, 27], none⟩), (1, ⟨[37], some (0, 17)⟩)], 2⟩

theorem deleteAllForksAfterSpec_witness :
    deleteAllForksAfter exC6 0 7 = .ok (removeForksAfter exC6 0 7) ∧
      (removeForksAfter exC6 0 7).lookup 1 = none ∧
      iterTimes (removeForksAfter exC6 0 7) 0 = iterTimes exC6 0 :=
  ⟨((deleteAllForksAfterSpec exC6 0 7 ⟨[7, 17, 27], none⟩ (by decide)
      (by decide)).2 (by decide)).1,
   ((deleteAllForksAfterSpec exC6 0 7 ⟨[7, 17, 27], none⟩ (by decide)
      (by decide)).2 (by decide)).2.2.1 1 (by decide),
   (((deleteAllForksAfterSpec exC6 0 7 ⟨[7, 17, 27], none⟩ (by decide)
      (by decide)).2 (by decide)).2.2.2 0 (by decide)).2⟩

/-!  Claim C3: the detach / attach round trip. -/

theorem setNode_setNode (f : Forest) (c : Nat) (nd₁ nd₂ : Node) :
    setNode (setNode f c nd₁) c nd₂ = setNode f c nd₂ := by
  show (⟨(f.nodes.map fun pr => if pr.1 = c then (c, nd₁) else pr).map
      (fun pr => if pr.1 = c then (c, nd₂) else pr), f.nextId⟩ : Forest) =
    ⟨f.nodes.map (fun pr => if pr.1 = c then (c, nd₂) else pr), f.nextId⟩
  rw [List.map_map]
  refine congrArg (fun l => Forest.mk l f.nextId) ?_
  refine List.map_congr_left ?_
  intro pr _
  by_cases h : pr.1 = c
  · simp [Function.comp, h]
  · simp [Function.comp, h]

theorem pushFront_some {f : Forest} {n : Nat} {t : Instant} {nd : Node}
    (h : f.lookup n = some nd) :
    pushFront f n t = setNode f n ⟨t :: nd.own, nd.parent⟩ := by
  unfold pushFront
  rw [h]

theorem popFront_some {f : Forest} {n : Nat} {nd : Node}
    (h : f.lookup n = some nd) :
    popFront f n = setNode f n ⟨nd.own.tail, nd.parent⟩ := by
  unfold popFront
  rw [h]

/-- C3: for a fork whose first own sample duplicates the fork-point time
(the copied-begin state produced by `push_front`),
`detach_fork_with_copied_begin` followed by `attach_fork_to_copied_begin`
onto a node owning a sample at that time, followed by `pop_front` on the
reparented node, yields a node whose iterated sequence is the new parent's
iterated sequence up to the fork point followed by the fork's remaining own
samples — the round trip is the identity at iteration level, modulo the
copied front sample. -/
theorem detachAttachRoundTrip (f : Forest) (c p q : Nat) (ftc : Instant)
    (rest : List Instant) (qnd : Node) (hw : WF f)
    (hc : f.lookup c = some ⟨rest, some (p, ftc)⟩)
    (hq : f.lookup q = some qnd) (hqc : q < c) (hft : ftc ∈ qnd.own) :
    ∃ f₂ f₃,
      detachForkWithCopiedBegin (pushFront f c ftc) c = .ok f₂ ∧
      attachForkToCopiedBegin f₂ q c = .ok f₃ ∧
      iterTimes (popFront f₃ c) c =
        (iterTimes (popFront f₃ c) q).takeWhile
          (fun x => decide (x ≤ ftc)) ++ rest := by
  have hwp := (WF_iff f).mp hw
  have hqc' : q ≠ c := Nat.ne_of_lt hqc
  have hf₁ : pushFront f c ftc = setNode f c ⟨ftc :: rest, some (p, ftc)⟩ :=
    pushFront_some hc
  have hlk₁ : (pushFront f c ftc).lookup c =
      some ⟨ftc :: rest, some (p, ftc)⟩ := by
    rw [hf₁]
    exact lookup_setNode_self _ hc
  have hdet : detachForkWithCopiedBegin (pushFront f c ftc) c =
      .ok (setNode (pushFront f c ftc) c ⟨ftc :: rest, none⟩) := by
    simp only [detachForkWithCopiedBegin, hlk₁]
  have hf₂ : setNode (pushFront f c ftc) c ⟨ftc :: rest, none⟩ =
      setNode f c ⟨ftc :: rest, none⟩ := by
    rw [hf₁, setNode_setNode]
  have hlk₂ : (setNode f c ⟨ftc :: rest, none⟩).lookup c =
      some ⟨ftc :: rest, none⟩ :=
    lookup_setNode_self _ hc
  have hownq : ownOf (setNode f c ⟨ftc :: rest, none⟩) q = qnd.own := by
    rw [ownOf_setNode_ne _ hqc', ownOf_eq hq]
  have hatt : attachForkToCopiedBegin (setNode f c ⟨ftc :: rest, none⟩) q c =
      .ok (setNode (setNode f c ⟨ftc :: rest, none⟩) c
        ⟨ftc :: rest, some (q, ftc)⟩) := by
    simp only [attachForkToCopiedBegin, hlk₂, List.head?_cons]
    rw [if_pos (by rw [hownq]; exact hft)]
  have hf₃ : setNode (setNode f c ⟨ftc :: rest, none⟩) c
      ⟨ftc :: rest, some (q, ftc)⟩ = setNode f c ⟨ftc :: rest, some (q, ftc)⟩ :=
    setNode_setNode ..
  have hlk₃ : (setNode f c ⟨ftc :: rest, some (q, ftc)⟩).lookup c =
      some ⟨ftc :: rest, some (q, ftc)⟩ :=
    lookup_setNode_self _ hc
  have hpop : popFront (setNode f c ⟨ftc :: rest, some (q, ftc)⟩) c =
      setNode f c ⟨rest, some (q, ftc)⟩ := by
    rw [popFront_some hlk₃, setNode_setNode]
    rfl
  have hwg : WFP (setNode f c ⟨rest, some (q, ftc)⟩) := by
    refine wfp_setNode hwp hc ?_ ?_ ?_
    · have := hwp.sorted (c, ⟨rest, some (p, ftc)⟩) (lookup_mem hc)
      exact this
    · intro p' ft' hp'
      rw [Option.some.injEq, Prod.mk.injEq] at hp'
      obtain ⟨hp1, hp2⟩ := hp'
      rw [← hp1, ← hp2]
      refine ⟨hqc, by rw [hq]; rfl, Or.inl (by rw [ownOf_eq hq]; exact hft), ?_⟩
      have := (hwp.pOk (c, ⟨rest, some (p, ftc)⟩) (lookup_mem hc) p ftc
        rfl).2.2.2
      exact this
    · intro k knd ftk hk hkp
      have h := (hwp.pOk (k, knd) (lookup_mem hk) c ftk hkp).2.2.1
      rcases h with h | h
      · left
        rw [ownOf_eq hc] at h
        exact h
      · right
        rw [parentOf_eq hc] at h
        exact h
  have hparg : parentOf (setNode f c ⟨rest, some (q, ftc)⟩) c =
      some (q, ftc) := by
    rw [parentOf_setNode_self _ hc]
  refine ⟨setNode f c ⟨ftc :: rest, none⟩,
    setNode f c ⟨ftc :: rest, some (q, ftc)⟩, ?_, ?_, ?_⟩
  · rw [hdet, hf₂]
  · rw [hatt, hf₃]
  · rw [hpop]
    rw [iterTimes_eq_eff hwg c, iterTimes_eq_eff hwg q,
      eff_fork hwg.plt hparg, ownOf_setNode_self _ hc]

def exC3 : Forest :=
  ⟨[(0, ⟨[7, 17, 27], none⟩), (1, ⟨[37], some (0, 17)⟩)], 2⟩

theorem detachAttachRoundTrip_witness :
    WF exC3 ∧
    ∃ f₂ f₃,
      detachForkWithCopiedBegin (pushFront exC3 1 17) 1 = .ok f₂ ∧
      attachForkToCopiedBegin f₂ 0 1 = .ok f₃ ∧
      iterTimes (popFront f₃ 1) 1 =
        (iterTimes (popFront f₃ 1) 0).takeWhile
          (fun x => decide (x ≤ 17)) ++ [37] :=
  ⟨by decide,
    detachAttachRoundTrip exC3 1 0 0 17 [37] ⟨[7, 17, 27], none⟩ (by decide)
      (by decide) (by decide) (by decide) (by decide)⟩
